import Mathlib

/-!
Fubelt formatter: a shallow embedding of `src/VSCode/extension.js`.

JavaScript strings are modelled as lists of characters (`Str`).  The regular
expressions of the source use only classes that treat the two halves of a
surrogate pair alike, so matching on Unicode scalar values and matching on
UTF-16 code units agree.  JavaScript numbers holding the indent level are
modelled as `Int` (they are small integers; `Math.max(0, ·)` is `max 0 ·`).
-/

namespace Fubelt

/-- A JavaScript string, as its list of characters. -/
abbrev Str := List Char

/-! ## Character classes -/

/-- Line terminators of ECMAScript: LF, CR, LS, PS (what `.` refuses to match). -/
def isLineTerminator (c : Char) : Bool :=
  c.toNat == 0x0A || c.toNat == 0x0D || c.toNat == 0x2028 || c.toNat == 0x2029

/-- The characters removed by `String.prototype.trim` and matched by `\s`:
ECMAScript WhiteSpace together with the line terminators. -/
def isWhiteSpace (c : Char) : Bool :=
  c.toNat == 0x09 || c.toNat == 0x0B || c.toNat == 0x0C || c.toNat == 0x20 ||
  c.toNat == 0xA0 || c.toNat == 0x1680 || (0x2000 ≤ c.toNat && c.toNat ≤ 0x200A) ||
  c.toNat == 0x202F || c.toNat == 0x205F || c.toNat == 0x3000 || c.toNat == 0xFEFF ||
  isLineTerminator c

/-- The class `\w`: ASCII letters, digits and underscore. -/
def isWordChar (c : Char) : Bool :=
  (0x61 ≤ c.toNat && c.toNat ≤ 0x7A) || (0x41 ≤ c.toNat && c.toNat ≤ 0x5A) ||
  (0x30 ≤ c.toNat && c.toNat ≤ 0x39) || c == '_'

/-- The class `[a-zA-Z_$]`. -/
def isIdentStart (c : Char) : Bool :=
  (0x61 ≤ c.toNat && c.toNat ≤ 0x7A) || (0x41 ≤ c.toNat && c.toNat ≤ 0x5A) ||
  c == '_' || c == '$'

/-- The class `[\w$]`. -/
def isIdentPart (c : Char) : Bool := isWordChar c || c == '$'

/-- The class `[{[(]`. -/
def isOpener (c : Char) : Bool := c == '{' || c == '[' || c == '('

/-- The class `[}\])]`. -/
def isCloser (c : Char) : Bool := c == '}' || c == ']' || c == ')'

/-! ## String primitives -/

/-- `s.startsWith(p)`. -/
def startsWith : Str → Str → Bool
  | _, [] => true
  | [], _ :: _ => false
  | c :: s, d :: p => c == d && startsWith s p

/-- `s.endsWith(p)`. -/
def endsWith (s p : Str) : Bool := startsWith s.reverse p.reverse

/-- `s.includes(p)`. -/
def includes : Str → Str → Bool
  | [], p => startsWith [] p
  | c :: s, p => startsWith (c :: s) p || includes s p

/-- `s.trim()`. -/
def trim (s : Str) : Str :=
  ((s.dropWhile isWhiteSpace).reverse.dropWhile isWhiteSpace).reverse

/-- `text.split('\n')`: the result is never empty. -/
def splitNL : Str → List Str
  | [] => [[]]
  | c :: cs =>
    if c = '\n' then [] :: splitNL cs
    else match splitNL cs with
      | [] => [[c]]
      | l :: ls => (c :: l) :: ls

/-- `lines.join('\n')`. -/
def joinNL : List Str → Str
  | [] => []
  | [l] => l
  | l :: m :: ls => l ++ '\n' :: joinNL (m :: ls)

/-- `'\t'.repeat(n)`.  `repeat` raises a RangeError on a negative count; the
indent level passed here is shown non-negative in every reachable state
(`run_levels`), so truncating at zero never happens on a run. -/
def tabs (n : Int) : Str := List.replicate n.toNat '\t'

/-! ## The regular expressions of the formatter -/

/-- The alternative `return\s*\(` anchored at the start of the line. -/
def reReturnParen (t : Str) : Bool :=
  startsWith t "return".toList &&
    startsWith ((t.drop 6).dropWhile isWhiteSpace) ['(']

/-- The alternative `}\s*\)` anchored at the start of the line. -/
def reBraceParen : Str → Bool
  | '}' :: r => startsWith (r.dropWhile isWhiteSpace) [')']
  | _ => false

/-- The alternative `[a-zA-Z_$][\w$]*\s*[=({]` anchored at the start. The
three classes are pairwise disjoint, so the greedy scan is the only match. -/
def reIdentThen : Str → Bool
  | [] => false
  | c :: r =>
    isIdentStart c &&
      match (r.dropWhile isIdentPart).dropWhile isWhiteSpace with
      | d :: _ => d == '=' || d == '(' || d == '{'
      | [] => false

/-- The alternative `\}\s*;` anchored at the start of the line. -/
def reBraceSemi : Str → Bool
  | '}' :: r => startsWith (r.dropWhile isWhiteSpace) [';']
  | _ => false

/-- The test of line 217,
`/^(import |export |const |let |var |function |class |return\s*\(|}\s*\)|[a-zA-Z_$][\w$]*\s*[=({]|\}\s*;)/`. -/
def isJavaScriptLine (t : Str) : Bool :=
  startsWith t "import ".toList || startsWith t "export ".toList ||
  startsWith t "const ".toList || startsWith t "let ".toList ||
  startsWith t "var ".toList || startsWith t "function ".toList ||
  startsWith t "class ".toList || reReturnParen t || reBraceParen t ||
  reIdentThen t || reBraceSemi t

/-- The match of lines 234 and 299, `/\w+\s*\(\s*\{$/`: read from the end of
the line, a `{`, white space, a `(`, white space, then a word character. -/
def reCallObject (t : Str) : Bool :=
  match t.reverse with
  | '{' :: r =>
    match r.dropWhile isWhiteSpace with
    | '(' :: r2 =>
      match r2.dropWhile isWhiteSpace with
      | w :: _ => isWordChar w
      | [] => false
    | _ => false
  | _ => false

/-- After the `>` of the opening tag: `.*<\/[^>]+>` — somewhere before the
next line terminator a `</`, one character other than `>`, and later a `>`. -/
def reCloseTagAfter : Str → Bool
  | [] => false
  | c :: r =>
    (c == '<' &&
      match r with
      | '/' :: e :: r2 => e != '>' && r2.contains '>'
      | _ => false) ||
    (!isLineTerminator c && reCloseTagAfter r)

/-- At a `<`: `<[^/>][^>]*>` followed by `reCloseTagAfter`.  `[^>]*` stops at
the first `>`, the only place the literal `>` can match. -/
def reOpenTagAt : Str → Bool
  | '<' :: c :: r =>
    c != '/' && c != '>' &&
      match r.dropWhile (fun x => x != '>') with
      | _ :: r2 => reCloseTagAfter r2
      | [] => false
  | _ => false

/-- The match of line 245, `/<[^/>][^>]*>.*<\/[^>]+>/`, tried at every
position of the line. -/
def reSingleLineElement : Str → Bool
  | [] => false
  | c :: r => reOpenTagAt (c :: r) || reSingleLineElement r

/-- Number of matches of `/[{[(]/g`. -/
def openCount (t : Str) : Int := (t.filter isOpener).length

/-- Number of matches of `/[}\])]/g`. -/
def closeCount (t : Str) : Int := (t.filter isCloser).length

/-- The test `startsWith('}') || startsWith(']') || startsWith(')')`. -/
def startsWithCloser (t : Str) : Bool :=
  startsWith t ['}'] || startsWith t [']'] || startsWith t [')']

/-- The test `endsWith('},') || endsWith('],') || endsWith('),')`. -/
def endsWithCloserComma (t : Str) : Bool :=
  endsWith t "\x7d,".toList || endsWith t "],".toList || endsWith t "),".toList

/-! ## The script and style sub-formatters -/

/-- Loop state of `formatJavaScript` and `formatCSS`. -/
structure SubState where
  formatted : List Str
  indentLevel : Int
  deriving DecidableEq

/-- Lines 289-291 (and 224-226): dedent before emitting a line that starts
with a closing bracket. -/
def dedentBefore (indentLevel : Int) (trimmed : Str) : Int :=
  if startsWithCloser trimmed then max 0 (indentLevel - 1) else indentLevel

/-- Lines 295-304: the net change computed by `formatJavaScript`.  The body of
the `if` on the object-literal pattern is empty in the source. -/
def jsNetChange (trimmed : Str) : Int :=
  let netChange := openCount trimmed - closeCount trimmed
  let netChange := if reCallObject trimmed then netChange else netChange
  if endsWithCloserComma trimmed then 0 else netChange

/-- Lines 289-307: the indent level after a non-blank line, from the level
before it. -/
def jsIndentAfter (indentLevel : Int) (trimmed : Str) : Int :=
  max 0 (dedentBefore indentLevel trimmed + jsNetChange trimmed)

/-- One iteration of the loop of `formatJavaScript` (lines 281-308). -/
def jsStep (baseIndent : Int) (st : SubState) (line : Str) : SubState :=
  let trimmed := trim line
  if trimmed.isEmpty then
    { st with formatted := st.formatted ++ [[]] }
  else
    { formatted := st.formatted ++
        [tabs (baseIndent + dedentBefore st.indentLevel trimmed) ++ trimmed]
      indentLevel := jsIndentAfter st.indentLevel trimmed }

/-- Lines 275-311. -/
def formatJavaScript (code : Str) (baseIndent : Int) : Str :=
  joinNL ((splitNL code).foldl (jsStep baseIndent) ⟨[], 0⟩).formatted

/-- Lines 327-329: dedent before a line that starts with `}`. -/
def cssDedentBefore (indentLevel : Int) (trimmed : Str) : Int :=
  if startsWith trimmed ['}'] then max 0 (indentLevel - 1) else indentLevel

/-- Lines 327-335: the indent level after a non-blank style line. -/
def cssIndentAfter (indentLevel : Int) (trimmed : Str) : Int :=
  if includes trimmed ['{'] && !includes trimmed ['}'] then
    cssDedentBefore indentLevel trimmed + 1
  else cssDedentBefore indentLevel trimmed

/-- One iteration of the loop of `formatCSS` (lines 319-336). -/
def cssStep (baseIndent : Int) (st : SubState) (line : Str) : SubState :=
  let trimmed := trim line
  if trimmed.isEmpty then
    { st with formatted := st.formatted ++ [[]] }
  else
    { formatted := st.formatted ++
        [tabs (baseIndent + cssDedentBefore st.indentLevel trimmed) ++ trimmed]
      indentLevel := cssIndentAfter st.indentLevel trimmed }

/-- Lines 313-339. -/
def formatCSS (code : Str) (baseIndent : Int) : Str :=
  joinNL ((splitNL code).foldl (cssStep baseIndent) ⟨[], 0⟩).formatted

/-! ## The main formatter -/

/-- The local variables of `formatFubeltDocument` (lines 137-148). -/
structure FmtState where
  indentLevel : Int
  formattedLines : List Str
  inScriptBlock : Bool
  inStyleBlock : Bool
  scriptStartIndent : Int
  styleStartIndent : Int
  scriptLines : List Str
  styleLines : List Str
  inJSXContext : Bool
  deriving DecidableEq

/-- The values of lines 137-148 before the loop. -/
def initState : FmtState :=
  { indentLevel := 0, formattedLines := [], inScriptBlock := false,
    inStyleBlock := false, scriptStartIndent := 0, styleStartIndent := 0,
    scriptLines := [], styleLines := [], inJSXContext := false }

/-- Lines 175 and 195: the lines of a sub-formatted block that are pushed,
`formatted.split('\n').filter(line => line || formatted.includes('\n\n'))`. -/
def keptLines (formatted : Str) : List Str :=
  (splitNL formatted).filter (fun line => !line.isEmpty || includes formatted ['\n', '\n'])

/-- Line 214. -/
def isJSXLine (trimmed : Str) : Bool :=
  startsWith trimmed ['<'] && !startsWith trimmed "<script>".toList &&
    !startsWith trimmed "<style>".toList

/-- Line 215. -/
def isJSXClose (trimmed : Str) : Bool :=
  startsWith trimmed "</".toList && !startsWith trimmed "</script>".toList &&
    !startsWith trimmed "</style>".toList

/-- Lines 230-240: the net change of the statement branch, with its two
overrides in the order of the source. -/
def stmtNetChange (trimmed : Str) : Int :=
  let netChange := openCount trimmed - closeCount trimmed
  let netChange := if reCallObject trimmed then 1 else netChange
  if endsWithCloserComma trimmed then 0 else netChange

/-- Lines 224-243: the indent level after a statement line. -/
def stmtIndentAfter (indentLevel : Int) (trimmed : Str) : Int :=
  max 0 (dedentBefore indentLevel trimmed + stmtNetChange trimmed)

/-- Lines 223-244: the statement branch. -/
def statementBranch (st : FmtState) (trimmed : Str) : FmtState :=
  { st with
    formattedLines := st.formattedLines ++
      [tabs (dedentBefore st.indentLevel trimmed) ++ trimmed]
    indentLevel := stmtIndentAfter st.indentLevel trimmed }

/-- Lines 259-269: the fallback branch. -/
def fallbackBranch (st : FmtState) (trimmed : Str) : FmtState :=
  let lvl := if startsWith trimmed ['}'] || startsWith trimmed [')'] then
    max 0 (st.indentLevel - 1) else st.indentLevel
  { st with
    formattedLines := st.formattedLines ++ [tabs lvl ++ trimmed]
    indentLevel :=
      if endsWith trimmed ['('] || (endsWith trimmed ['{'] && !includes trimmed ['}']) then
        lvl + 1 else lvl }

/-- Lines 219-221: the sticky flag. -/
def markJSX (st : FmtState) (trimmed : Str) : FmtState :=
  { st with
    inJSXContext :=
      if isJSXLine trimmed || isJSXClose trimmed then true else st.inJSXContext }

/-- Lines 223-269: the chain of branches, tried in the order of the source. -/
def dispatch (st : FmtState) (trimmed : Str) : FmtState :=
  if isJavaScriptLine trimmed && !st.inJSXContext then
    statementBranch st trimmed
  else if reSingleLineElement trimmed && !startsWith trimmed "</".toList then
    { st with formattedLines := st.formattedLines ++ [tabs st.indentLevel ++ trimmed] }
  else if isJSXClose trimmed then
    { st with
      indentLevel := max 0 (st.indentLevel - 1)
      formattedLines := st.formattedLines ++ [tabs (max 0 (st.indentLevel - 1)) ++ trimmed] }
  else if endsWith trimmed "/>".toList then
    { st with formattedLines := st.formattedLines ++ [tabs st.indentLevel ++ trimmed] }
  else if isJSXLine trimmed && endsWith trimmed ['>'] && !startsWith trimmed "</".toList then
    { st with
      formattedLines := st.formattedLines ++ [tabs st.indentLevel ++ trimmed]
      indentLevel := st.indentLevel + 1 }
  else
    fallbackBranch st trimmed

/-- Lines 214-269: a non-blank line that is no block marker, outside blocks. -/
def normalLine (st : FmtState) (trimmed : Str) : FmtState :=
  dispatch (markJSX st trimmed) trimmed

/-- The loop body of `formatFubeltDocument` on an already trimmed line
(lines 153-269). -/
def stepTrimmed (st : FmtState) (trimmed : Str) : FmtState :=
  if trimmed.length = 0 then
    if st.inScriptBlock then { st with scriptLines := st.scriptLines ++ [[]] }
    else if st.inStyleBlock then { st with styleLines := st.styleLines ++ [[]] }
    else { st with formattedLines := st.formattedLines ++ [[]] }
  else if trimmed = "<script>".toList then
    { st with
      formattedLines := st.formattedLines ++ [tabs st.indentLevel ++ trimmed]
      scriptStartIndent := st.indentLevel
      indentLevel := st.indentLevel + 1
      inScriptBlock := true
      scriptLines := [] }
  else if trimmed = "</script>".toList then
    { st with
      formattedLines := st.formattedLines ++
        keptLines (formatJavaScript (joinNL st.scriptLines) (st.scriptStartIndent + 1)) ++
        [tabs st.scriptStartIndent ++ trimmed]
      indentLevel := st.scriptStartIndent
      inScriptBlock := false
      scriptLines := [] }
  else if trimmed = "<style>".toList then
    { st with
      formattedLines := st.formattedLines ++ [tabs st.indentLevel ++ trimmed]
      styleStartIndent := st.indentLevel
      indentLevel := st.indentLevel + 1
      inStyleBlock := true
      styleLines := [] }
  else if trimmed = "</style>".toList then
    { st with
      formattedLines := st.formattedLines ++
        keptLines (formatCSS (joinNL st.styleLines) (st.styleStartIndent + 1)) ++
        [tabs st.styleStartIndent ++ trimmed]
      indentLevel := st.styleStartIndent
      inStyleBlock := false
      styleLines := [] }
  else if st.inScriptBlock then
    { st with scriptLines := st.scriptLines ++ [trimmed] }
  else if st.inStyleBlock then
    { st with styleLines := st.styleLines ++ [trimmed] }
  else
    normalLine st trimmed

/-- One iteration of the loop of lines 150-270. -/
def step (st : FmtState) (line : Str) : FmtState := stepTrimmed st (trim line)

/-- The loop of lines 150-270 over a list of lines. -/
def run (st : FmtState) (lines : List Str) : FmtState := lines.foldl step st

/-- Lines 136-273. -/
def formatFubeltDocument (text : Str) : Str :=
  joinNL (run initState (splitNL text)).formattedLines

/-- The non-blank lines of a text, each trimmed: the content a formatter has
to keep. -/
def contentLines (text : Str) : List Str :=
  ((splitNL text).map trim).filter (fun l => !l.isEmpty)

/-- The three non-negativity facts carried along the main loop. -/
def LevelsNonneg (st : FmtState) : Prop :=
  0 ≤ st.indentLevel ∧ 0 ≤ st.scriptStartIndent ∧ 0 ≤ st.styleStartIndent

/-- The four block markers of lines 164, 173, 184 and 193. -/
def isMarker (t : Str) : Bool :=
  t == "<script>".toList || t == "</script>".toList ||
  t == "<style>".toList || t == "</style>".toList

/-- A line holding one tag: an opening tag `<name>` or a closing tag `</name>`. -/
inductive TagLine where
  | opening (name : Str)
  | closing (name : Str)
  deriving DecidableEq

/-- The name inside the tag. -/
def TagLine.name : TagLine → Str
  | .opening n => n
  | .closing n => n

/-- The text of the tag line. -/
def TagLine.render : TagLine → Str
  | .opening n => '<' :: (n ++ ['>'])
  | .closing n => '<' :: '/' :: (n ++ ['>'])

/-- Tag names of the nesting property: any text free of `<`, `>` and `/`
(attributes included), other than `script` and `style`. -/
def isPlainName (n : Str) : Bool :=
  n.all (fun c => c != '<' && c != '>' && c != '/') &&
    n != "script".toList && n != "style".toList

/-- Proper nesting of a sequence of tag lines, from a stack of open names:
each closing tag names the innermost open tag and nothing stays open. -/
def properlyNested : List Str → List TagLine → Bool
  | stack, [] => stack.isEmpty
  | stack, .opening n :: rest => properlyNested (n :: stack) rest
  | [], .closing _ :: _ => false
  | m :: stack, .closing n :: rest => n == m && properlyNested stack rest

/-- Nesting depth of each tag line, from the depth before the first line: an
opening tag sits at the current depth, a closing tag at that of its opener. -/
def nestingDepths : Nat → List TagLine → List Nat
  | _, [] => []
  | d, .opening _ :: rest => d :: nestingDepths (d + 1) rest
  | d, .closing _ :: rest => (d - 1) :: nestingDepths (d - 1) rest

/-- The lines a sub-formatter emits for a list of lines read from a given
level: the loops of `formatJavaScript` and `formatCSS` differ only in the
level at which a line is emitted (`emit`) and the level it leaves (`after`). -/
def subLines (emit after : Int → Str → Int) (base : Int) : Int → List Str → List Str
  | _, [] => []
  | lvl, l :: r =>
    if (trim l).isEmpty then [] :: subLines emit after base lvl r
    else (tabs (base + emit lvl (trim l)) ++ trim l) ::
      subLines emit after base (after lvl (trim l)) r

/-- For each non-blank line of a script block, in order: the level at which
`formatJavaScript` emits it (its own counter, which starts at 0) and the line. -/
def scriptTrace : Int → List Str → List (Int × Str)
  | _, [] => []
  | lvl, t :: r =>
    if t.isEmpty then scriptTrace lvl r
    else (dedentBefore lvl t, t) :: scriptTrace (jsIndentAfter lvl t) r

/-- Where the loop stands with respect to script and style blocks. -/
inductive Mode where
  | normal
  | script
  | style
  deriving DecidableEq

/-- The marker discipline of well-formed blocks, line by line: an opening
marker only outside blocks, inside a block no marker but its own closing one. -/
def nextMode : Mode → Str → Option Mode
  | .normal, t =>
    if t = "<script>".toList then some .script
    else if t = "<style>".toList then some .style
    else if isMarker t then none
    else some .normal
  | .script, t =>
    if t = "</script>".toList then some .normal
    else if isMarker t then none
    else some .script
  | .style, t =>
    if t = "</style>".toList then some .normal
    else if isMarker t then none
    else some .style

/-- The marker lines of the text form properly paired, non-nested and
non-interleaved open/close pairs, and every block is closed at the end. -/
def wellFormedBlocks : Mode → List Str → Bool
  | m, [] => m == .normal
  | m, l :: r =>
    match nextMode m (trim l) with
    | some m2 => wellFormedBlocks m2 r
    | none => false

/-- A line that `trim` leaves alone and that holds no line feed. -/
def CleanLine (x : Str) : Prop := trim x = x ∧ '\n' ∉ x

/-- Buffered block lines: trimmed, free of line feeds, and no block markers. -/
def GoodBuf (S : List Str) : Prop := ∀ x ∈ S, CleanLine x ∧ isMarker x = false

/-- The link between a state of a first pass and the state a second pass
reaches on the lines the first pass has emitted so far: outside blocks the
two coincide; inside a block the second pass has read the opening line and
buffered nothing yet. -/
def Sim : Mode → FmtState → Prop
  | .normal, s =>
    s.inScriptBlock = false ∧ s.inStyleBlock = false ∧ s.scriptLines = [] ∧
      s.styleLines = [] ∧ run initState s.formattedLines = s
  | .script, s =>
    s.inScriptBlock = true ∧ s.inStyleBlock = false ∧ s.styleLines = [] ∧
      GoodBuf s.scriptLines ∧
      run initState s.formattedLines = { s with scriptLines := [] }
  | .style, s =>
    s.inScriptBlock = false ∧ s.inStyleBlock = true ∧ s.scriptLines = [] ∧
      GoodBuf s.styleLines ∧
      run initState s.formattedLines = { s with styleLines := [] }

/-! ## The tag-stack scanner and the edit providers -/

/-- The class `[\w-]` of the tag regex. -/
def isTagNameChar (c : Char) : Bool := isWordChar c || c == '-'

/-- One match of `/<(\/?)([\w-]+)[^>]*>/g`: `match[0]`, `match[1]`, `match[2]`. -/
structure TagMatch where
  whole : Str
  slash : Str
  name : Str
  deriving DecidableEq

/-- The regex of line 344 tried at the start of the text: a `<`, the optional
`/` (taken when present: without it the name would have to start at the `/`),
the longest run of `[\w-]`, which must not be empty, then everything up to the
first `>`, which must exist.  Returns the match. -/
def tagMatchAt : Str → Option TagMatch
  | '<' :: r =>
    let slash : Str := if startsWith r ['/'] then ['/'] else []
    let r1 := r.drop slash.length
    let name := r1.takeWhile isTagNameChar
    let r2 := r1.dropWhile isTagNameChar
    if name.isEmpty then none
    else if r2.contains '>' then
      some { whole := '<' :: (slash ++ name ++ r2.takeWhile (fun c => c != '>') ++ ['>'])
             slash := slash
             name := name }
    else none
  | _ => none

/-- The successive results of `tagRegex.exec(text)` (line 347): the text is
scanned from `lastIndex`, here the characters still to skip because they lie
inside the previous match; a match is the leftmost one. -/
def tagMatchesFrom : Nat → Str → List TagMatch
  | _, [] => []
  | skip + 1, _ :: r => tagMatchesFrom skip r
  | 0, c :: r =>
    match tagMatchAt (c :: r) with
    | some m => m :: tagMatchesFrom (m.whole.length - 1) r
    | none => tagMatchesFrom 0 r

/-- All matches of the tag regex in the text, in order. -/
def tagMatches (text : Str) : List TagMatch := tagMatchesFrom 0 text

/-- Lines 352-357: `for (i = i0 - 1; i >= 0; i--)`, splicing out the first
entry found equal to the name. -/
def spliceLast (openTags : List Str) (tagName : Str) : Nat → List Str
  | 0 => openTags
  | i + 1 =>
    if openTags[i]? = some tagName then openTags.eraseIdx i
    else spliceLast openTags tagName i

/-- Lines 348-362: the body of the loop over the matches. -/
def tagStep (openTags : List Str) (m : TagMatch) : List Str :=
  if m.slash = ['/'] then spliceLast openTags m.name openTags.length
  else if !endsWith m.whole "/>".toList then openTags ++ [m.name]
  else openTags

/-- Lines 341-366, on the text before the position (`document.getText` of the
range from the start to the position belongs to the editor). -/
def findOpenTags (text : Str) : List Str := (tagMatches text).foldl tagStep []

/-- The list update in the words of the specification: a closing token
removes the last occurrence of its name, if any; an opening token ending in
`/>` changes nothing; any other opening token appends its name. -/
def tagStepSpec (openTags : List Str) (m : TagMatch) : List Str :=
  if m.slash = ['/'] then (openTags.reverse.erase m.name).reverse
  else if endsWith m.whole "/>".toList then openTags
  else openTags ++ [m.name]

/-- A strict stack over the tokens, outermost tag first: an opening token
pushes, a self-closing one does nothing, a closing token pops and must name
the top of the stack. -/
def strictStack : List Str → List TagMatch → Option (List Str)
  | stk, [] => some stk
  | stk, m :: r =>
    if m.slash = ['/'] then
      if stk.getLast? = some m.name then strictStack stk.dropLast r else none
    else if endsWith m.whole "/>".toList then strictStack stk r
    else strictStack (stk ++ [m.name]) r

/-- Number of opening tokens that are pushed. -/
def pushCount (toks : List TagMatch) : Nat :=
  (toks.filter (fun m => m.slash != ['/'] && !endsWith m.whole "/>".toList)).length

/-- Number of closing tokens. -/
def closeTokenCount (toks : List TagMatch) : Nat :=
  (toks.filter (fun m => m.slash == ['/'])).length

/-- `text.length`: the number of UTF-16 code units. -/
def jsLength (text : Str) : Nat :=
  (text.map (fun c => if c.toNat < 0x10000 then 1 else 2)).sum

/-- A `vscode.TextEdit.replace(range, newText)`. -/
structure TextEdit (Range : Type) where
  range : Range
  newText : Str

/-- Lines 50-64.  `document.positionAt` belongs to the editor and is a
parameter; a `vscode.Range` is the pair of its two positions. -/
def provideDocumentFormattingEdits {Pos : Type} (positionAt : Nat → Pos) (text : Str) :
    List (TextEdit (Pos × Pos)) :=
  let formatted := formatFubeltDocument text
  if formatted ≠ text then
    [{ range := (positionAt 0, positionAt (jsLength text)), newText := formatted }]
  else []

/-- Lines 68-78.  `document.getText(range)` belongs to the editor and is a
parameter. -/
def provideDocumentRangeFormattingEdits {Range : Type} (getText : Range → Str)
    (range : Range) : List (TextEdit Range) :=
  let text := getText range
  let formatted := formatFubeltDocument text
  if formatted ≠ text then [{ range := range, newText := formatted }] else []

/-- Lines 245-269: the branches after the statement branch. -/
def markupBranches (st : FmtState) (trimmed : Str) : FmtState :=
  if reSingleLineElement trimmed && !startsWith trimmed "</".toList then
    { st with formattedLines := st.formattedLines ++ [tabs st.indentLevel ++ trimmed] }
  else if isJSXClose trimmed then
    { st with
      indentLevel := max 0 (st.indentLevel - 1)
      formattedLines := st.formattedLines ++ [tabs (max 0 (st.indentLevel - 1)) ++ trimmed] }
  else if endsWith trimmed "/>".toList then
    { st with formattedLines := st.formattedLines ++ [tabs st.indentLevel ++ trimmed] }
  else if isJSXLine trimmed && endsWith trimmed ['>'] && !startsWith trimmed "</".toList then
    { st with
      formattedLines := st.formattedLines ++ [tabs st.indentLevel ++ trimmed]
      indentLevel := st.indentLevel + 1 }
  else
    fallbackBranch st trimmed

/-- The kinds of style line of the nesting property. -/
inductive CssKind where
  | opener
  | closer
  | neutral
  | other
  deriving DecidableEq

/-- An opener contains `{` and no `}`; a closer starts with `}` and contains
no `{`; a neutral line contains no brace, or both braces without starting
with `}`; anything else is outside the nesting property. -/
def cssKind (t : Str) : CssKind :=
  if includes t ['{'] && !includes t ['}'] then .opener
  else if startsWith t ['}'] && !includes t ['{'] then .closer
  else if (!includes t ['{'] && !includes t ['}']) ||
      (includes t ['{'] && includes t ['}'] && !startsWith t ['}']) then .neutral
  else .other

/-- Proper nesting of trimmed style lines from a depth: blank lines and
neutral lines keep the depth, an opener raises it, a closer needs an open
rule and lowers it, and nothing stays open at the end. -/
def cssNested : Nat → List Str → Bool
  | d, [] => d == 0
  | d, t :: r =>
    if t.isEmpty then cssNested d r
    else match cssKind t, d with
      | .opener, _ => cssNested (d + 1) r
      | .closer, 0 => false
      | .closer, d2 + 1 => cssNested d2 r
      | .neutral, _ => cssNested d r
      | .other, _ => false

/-- What the nesting property expects of `formatCSS`: a blank line stays
empty, any other line, trimmed, sits behind base + depth tabs, a closer at
the depth of its opener. -/
def cssExpected (b : Nat) : Nat → List Str → List Str
  | _, [] => []
  | d, t :: r =>
    if t.isEmpty then [] :: cssExpected b d r
    else match cssKind t with
      | .opener => (List.replicate (b + d) '\t' ++ t) :: cssExpected b (d + 1) r
      | .closer => (List.replicate (b + (d - 1)) '\t' ++ t) :: cssExpected b (d - 1) r
      | _ => (List.replicate (b + d) '\t' ++ t) :: cssExpected b d r

/-- A line without any bracket of `{[(` or `}])`. -/
def bracketFree (t : Str) : Bool := (t.filter isOpener).isEmpty && (t.filter isCloser).isEmpty

/-- The lines of a block up to and including the first one that holds a
bracket. -/
def flatPrefix : List Str → List Str
  | [] => []
  | t :: r => if bracketFree t then t :: flatPrefix r else [t]

/-! ## Basic facts about the loop -/

theorem run_nil (st : FmtState) : run st [] = st := rfl

theorem run_cons (st : FmtState) (l : Str) (ls : List Str) :
    run st (l :: ls) = run (step st l) ls := rfl

theorem run_append (st : FmtState) (a b : List Str) :
    run st (a ++ b) = run (run st a) b := by
  simp [run, List.foldl_append]

theorem run_snoc (st : FmtState) (a : List Str) (l : Str) :
    run st (a ++ [l]) = step (run st a) l := by
  simp [run_append, run_cons, run_nil]

theorem dedentBefore_nonneg {n : Int} (h : 0 ≤ n) (t : Str) : 0 ≤ dedentBefore n t := by
  unfold dedentBefore; split_ifs <;> omega

theorem dedentBefore_of_not_closer {n : Int} {t : Str} (h : startsWithCloser t = false) :
    dedentBefore n t = n := by
  simp [dedentBefore, h]

theorem normalLine_levels (st : FmtState) (t : Str) (h : LevelsNonneg st) :
    LevelsNonneg (normalLine st t) := by
  obtain ⟨h1, h2, h3⟩ := h
  unfold normalLine dispatch markJSX statementBranch fallbackBranch stmtIndentAfter LevelsNonneg
  dsimp only
  split_ifs <;> simp <;> omega

theorem stepTrimmed_levels (st : FmtState) (t : Str) (h : LevelsNonneg st) :
    LevelsNonneg (stepTrimmed st t) := by
  have hn := normalLine_levels st t h
  obtain ⟨h1, h2, h3⟩ := h
  unfold stepTrimmed
  split_ifs <;> first | exact hn | (simp [LevelsNonneg]; omega)

theorem run_levels (lines : List Str) (st : FmtState) (h : LevelsNonneg st) :
    LevelsNonneg (run st lines) := by
  induction lines generalizing st with
  | nil => exact h
  | cons l ls ih => exact ih _ (stepTrimmed_levels st (trim l) h)

theorem initState_levels : LevelsNonneg initState := by
  simp [LevelsNonneg, initState]

theorem jsStep_nonneg (base : Int) (st : SubState) (l : Str) (h : 0 ≤ st.indentLevel) :
    0 ≤ (jsStep base st l).indentLevel := by
  unfold jsStep jsIndentAfter
  dsimp only
  split_ifs
  · exact h
  · exact le_max_left 0 _

theorem cssStep_nonneg (base : Int) (st : SubState) (l : Str) (h : 0 ≤ st.indentLevel) :
    0 ≤ (cssStep base st l).indentLevel := by
  unfold cssStep cssIndentAfter cssDedentBefore
  dsimp only
  split_ifs <;> simp only [] <;> omega

theorem foldl_jsStep_nonneg (base : Int) (lines : List Str) (st : SubState)
    (h : 0 ≤ st.indentLevel) : 0 ≤ (lines.foldl (jsStep base) st).indentLevel := by
  induction lines generalizing st with
  | nil => exact h
  | cons l ls ih => exact ih _ (jsStep_nonneg base st l h)

theorem foldl_cssStep_nonneg (base : Int) (lines : List Str) (st : SubState)
    (h : 0 ≤ st.indentLevel) : 0 ≤ (lines.foldl (cssStep base) st).indentLevel := by
  induction lines generalizing st with
  | nil => exact h
  | cons l ls ih => exact ih _ (cssStep_nonneg base st l h)

/-! ## Which branch a line takes -/

theorem isJavaScriptLine_not_lt (r : Str) : isJavaScriptLine ('<' :: r) = false := by
  simp [isJavaScriptLine, startsWith, reReturnParen, reBraceParen, reIdentThen, reBraceSemi,
    isIdentStart]

theorem isJavaScriptLine_ne_nil {t : Str} (h : isJavaScriptLine t = true) : t ≠ [] := by
  rintro rfl
  simp [isJavaScriptLine, startsWith, reReturnParen, reBraceParen, reIdentThen, reBraceSemi] at h

theorem isJavaScriptLine_startsWith_lt {t : Str} (h : isJavaScriptLine t = true) :
    startsWith t ['<'] = false := by
  cases t with
  | nil => rfl
  | cons c r =>
    by_cases hc : c = '<'
    · subst hc; rw [isJavaScriptLine_not_lt] at h; cases h
    · simp [startsWith, hc]

theorem startsWith_lt_of_prefix {t p : Str} (h : startsWith t ['<'] = false) :
    startsWith t ('<' :: p) = false := by
  cases t with
  | nil => rfl
  | cons c r =>
    simp only [startsWith, Bool.and_true] at h
    simp [startsWith, h]

/-- A statement line met outside blocks before any tag line takes the
statement branch. -/
theorem stepTrimmed_statement (st : FmtState) (t : Str)
    (hs : st.inScriptBlock = false) (hy : st.inStyleBlock = false)
    (hj : st.inJSXContext = false) (ht : isJavaScriptLine t = true) :
    stepTrimmed st t = statementBranch st t := by
  have hne := isJavaScriptLine_ne_nil ht
  have hlt := isJavaScriptLine_startsWith_lt ht
  have h1 : t ≠ "<script>".toList := by rintro rfl; simp [startsWith] at hlt
  have h2 : t ≠ "</script>".toList := by rintro rfl; simp [startsWith] at hlt
  have h3 : t ≠ "<style>".toList := by rintro rfl; simp [startsWith] at hlt
  have h4 : t ≠ "</style>".toList := by rintro rfl; simp [startsWith] at hlt
  have h5 : isJSXLine t = false := by simp [isJSXLine, hlt]
  have h6 : isJSXClose t = false := by
    simp [isJSXClose, startsWith_lt_of_prefix hlt]
  have hlen : t.length ≠ 0 := by simpa using hne
  have hm : markJSX st t = st := by simp [markJSX, h5, h6]
  unfold stepTrimmed
  rw [if_neg hlen, if_neg h1, if_neg h2, if_neg h3, if_neg h4]
  simp [hs, hy, normalLine, hm, dispatch, hj, ht]

/-! ## The loop body, case by case -/

theorem stepTrimmed_nil (st : FmtState) :
    stepTrimmed st [] =
      if st.inScriptBlock then { st with scriptLines := st.scriptLines ++ [[]] }
      else if st.inStyleBlock then { st with styleLines := st.styleLines ++ [[]] }
      else { st with formattedLines := st.formattedLines ++ [[]] } := by
  simp [stepTrimmed]

theorem stepTrimmed_scriptOpen (st : FmtState) :
    stepTrimmed st "<script>".toList =
      { st with
        formattedLines := st.formattedLines ++ [tabs st.indentLevel ++ "<script>".toList]
        scriptStartIndent := st.indentLevel
        indentLevel := st.indentLevel + 1
        inScriptBlock := true
        scriptLines := [] } := by
  unfold stepTrimmed
  rw [if_neg (by decide), if_pos rfl]

theorem stepTrimmed_scriptClose (st : FmtState) :
    stepTrimmed st "</script>".toList =
      { st with
        formattedLines := st.formattedLines ++
          keptLines (formatJavaScript (joinNL st.scriptLines) (st.scriptStartIndent + 1)) ++
          [tabs st.scriptStartIndent ++ "</script>".toList]
        indentLevel := st.scriptStartIndent
        inScriptBlock := false
        scriptLines := [] } := by
  unfold stepTrimmed
  rw [if_neg (by decide), if_neg (by decide), if_pos rfl]

theorem stepTrimmed_styleOpen (st : FmtState) :
    stepTrimmed st "<style>".toList =
      { st with
        formattedLines := st.formattedLines ++ [tabs st.indentLevel ++ "<style>".toList]
        styleStartIndent := st.indentLevel
        indentLevel := st.indentLevel + 1
        inStyleBlock := true
        styleLines := [] } := by
  unfold stepTrimmed
  rw [if_neg (by decide), if_neg (by decide), if_neg (by decide), if_pos rfl]

theorem stepTrimmed_styleClose (st : FmtState) :
    stepTrimmed st "</style>".toList =
      { st with
        formattedLines := st.formattedLines ++
          keptLines (formatCSS (joinNL st.styleLines) (st.styleStartIndent + 1)) ++
          [tabs st.styleStartIndent ++ "</style>".toList]
        indentLevel := st.styleStartIndent
        inStyleBlock := false
        styleLines := [] } := by
  unfold stepTrimmed
  rw [if_neg (by decide), if_neg (by decide), if_neg (by decide), if_neg (by decide), if_pos rfl]

theorem isMarker_false_iff {t : Str} :
    isMarker t = false ↔
      t ≠ "<script>".toList ∧ t ≠ "</script>".toList ∧
      t ≠ "<style>".toList ∧ t ≠ "</style>".toList := by
  unfold isMarker
  simp only [Bool.or_eq_false_iff, beq_eq_false_iff_ne, ne_eq, and_assoc]

/-- A non-blank line that is no marker is buffered inside a block and otherwise
classified by `normalLine`. -/
theorem stepTrimmed_other (st : FmtState) {t : Str} (hne : t ≠ []) (hm : isMarker t = false) :
    stepTrimmed st t =
      if st.inScriptBlock then { st with scriptLines := st.scriptLines ++ [t] }
      else if st.inStyleBlock then { st with styleLines := st.styleLines ++ [t] }
      else normalLine st t := by
  obtain ⟨h1, h2, h3, h4⟩ := isMarker_false_iff.mp hm
  have hlen : t.length ≠ 0 := by simpa using hne
  unfold stepTrimmed
  rw [if_neg hlen, if_neg h1, if_neg h2, if_neg h3, if_neg h4]

theorem dispatch_frame (st : FmtState) (t : Str) :
    (dispatch st t).inScriptBlock = st.inScriptBlock ∧
    (dispatch st t).inStyleBlock = st.inStyleBlock ∧
    (dispatch st t).scriptStartIndent = st.scriptStartIndent ∧
    (dispatch st t).styleStartIndent = st.styleStartIndent ∧
    (dispatch st t).scriptLines = st.scriptLines ∧
    (dispatch st t).styleLines = st.styleLines ∧
    (dispatch st t).inJSXContext = st.inJSXContext := by
  unfold dispatch statementBranch fallbackBranch
  split_ifs <;> simp

theorem normalLine_frame (st : FmtState) (t : Str) :
    (normalLine st t).inScriptBlock = st.inScriptBlock ∧
    (normalLine st t).inStyleBlock = st.inStyleBlock ∧
    (normalLine st t).scriptStartIndent = st.scriptStartIndent ∧
    (normalLine st t).styleStartIndent = st.styleStartIndent ∧
    (normalLine st t).scriptLines = st.scriptLines ∧
    (normalLine st t).styleLines = st.styleLines := by
  obtain ⟨h1, h2, h3, h4, h5, h6, _⟩ := dispatch_frame (markJSX st t) t
  exact ⟨h1, h2, h3, h4, h5, h6⟩

/-- Only a `<script>` line changes the script entry snapshot. -/
theorem stepTrimmed_scriptStartIndent (st : FmtState) {t : Str}
    (h : t ≠ "<script>".toList) :
    (stepTrimmed st t).scriptStartIndent = st.scriptStartIndent := by
  by_cases hnil : t = []
  · subst hnil; rw [stepTrimmed_nil]; split_ifs <;> rfl
  by_cases hm : isMarker t = false
  · rw [stepTrimmed_other st hnil hm]
    split_ifs
    · rfl
    · rfl
    · exact (normalLine_frame st t).2.2.1
  · have : t = "</script>".toList ∨ t = "<style>".toList ∨ t = "</style>".toList := by
      by_contra hcon
      push_neg at hcon
      exact hm (isMarker_false_iff.mpr ⟨h, hcon.1, hcon.2.1, hcon.2.2⟩)
    rcases this with rfl | rfl | rfl
    · rw [stepTrimmed_scriptClose]
    · rw [stepTrimmed_styleOpen]
    · rw [stepTrimmed_styleClose]

/-- Only a `<style>` line changes the style entry snapshot. -/
theorem stepTrimmed_styleStartIndent (st : FmtState) {t : Str}
    (h : t ≠ "<style>".toList) :
    (stepTrimmed st t).styleStartIndent = st.styleStartIndent := by
  by_cases hnil : t = []
  · subst hnil; rw [stepTrimmed_nil]; split_ifs <;> rfl
  by_cases hm : isMarker t = false
  · rw [stepTrimmed_other st hnil hm]
    split_ifs
    · rfl
    · rfl
    · exact (normalLine_frame st t).2.2.2.1
  · have : t = "<script>".toList ∨ t = "</script>".toList ∨ t = "</style>".toList := by
      by_contra hcon
      push_neg at hcon
      exact hm (isMarker_false_iff.mpr ⟨hcon.1, hcon.2.1, h, hcon.2.2⟩)
    rcases this with rfl | rfl | rfl
    · rw [stepTrimmed_scriptOpen]
    · rw [stepTrimmed_scriptClose]
    · rw [stepTrimmed_styleClose]

theorem run_scriptStartIndent (mid : List Str) (st : FmtState)
    (h : ∀ l ∈ mid, trim l ≠ "<script>".toList) :
    (run st mid).scriptStartIndent = st.scriptStartIndent := by
  induction mid generalizing st with
  | nil => rfl
  | cons l ls ih =>
    rw [run_cons, ih _ (fun x hx => h x (List.mem_cons_of_mem _ hx))]
    exact stepTrimmed_scriptStartIndent st (h l (List.mem_cons_self _ _))

theorem run_styleStartIndent (mid : List Str) (st : FmtState)
    (h : ∀ l ∈ mid, trim l ≠ "<style>".toList) :
    (run st mid).styleStartIndent = st.styleStartIndent := by
  induction mid generalizing st with
  | nil => rfl
  | cons l ls ih =>
    rw [run_cons, ih _ (fun x hx => h x (List.mem_cons_of_mem _ hx))]
    exact stepTrimmed_styleStartIndent st (h l (List.mem_cons_self _ _))

theorem tabs_natCast (n : Nat) : tabs (n : Int) = List.replicate n '\t' := by
  simp [tabs]

/-- A script block from any state: the closing tag line is the last line
emitted, with the tabs of the opening tag line, and the level is restored. -/
theorem script_block_restores (st : FmtState) (n : Nat) (hn : st.indentLevel = n)
    (o c : Str) (mid : List Str)
    (ho : trim o = "<script>".toList) (hc : trim c = "</script>".toList)
    (hmid : ∀ l ∈ mid, trim l ≠ "<script>".toList) :
    (step st o).formattedLines =
      st.formattedLines ++ [List.replicate n '\t' ++ "<script>".toList] ∧
    (∃ out, (run st (o :: mid ++ [c])).formattedLines =
      out ++ [List.replicate n '\t' ++ "</script>".toList]) ∧
    (run st (o :: mid ++ [c])).indentLevel = n := by
  have hstart : (run (step st o) mid).scriptStartIndent = n := by
    rw [run_scriptStartIndent mid _ hmid, step, ho, stepTrimmed_scriptOpen]
    exact hn
  refine ⟨?_, ?_, ?_⟩
  · rw [step, ho, stepTrimmed_scriptOpen, hn, tabs_natCast]
  · rw [run_snoc, run_cons, step, hc, stepTrimmed_scriptClose, hstart, tabs_natCast]
    exact ⟨_, rfl⟩
  · rw [run_snoc, run_cons, step, hc, stepTrimmed_scriptClose]
    exact hstart

/-- A style block from any state, as `script_block_restores`. -/
theorem style_block_restores (st : FmtState) (n : Nat) (hn : st.indentLevel = n)
    (o c : Str) (mid : List Str)
    (ho : trim o = "<style>".toList) (hc : trim c = "</style>".toList)
    (hmid : ∀ l ∈ mid, trim l ≠ "<style>".toList) :
    (step st o).formattedLines =
      st.formattedLines ++ [List.replicate n '\t' ++ "<style>".toList] ∧
    (∃ out, (run st (o :: mid ++ [c])).formattedLines =
      out ++ [List.replicate n '\t' ++ "</style>".toList]) ∧
    (run st (o :: mid ++ [c])).indentLevel = n := by
  have hstart : (run (step st o) mid).styleStartIndent = n := by
    rw [run_styleStartIndent mid _ hmid, step, ho, stepTrimmed_styleOpen]
    exact hn
  refine ⟨?_, ?_, ?_⟩
  · rw [step, ho, stepTrimmed_styleOpen, hn, tabs_natCast]
  · rw [run_snoc, run_cons, step, hc, stepTrimmed_styleClose, hstart, tabs_natCast]
    exact ⟨_, rfl⟩
  · rw [run_snoc, run_cons, step, hc, stepTrimmed_styleClose]
    exact hstart

/-! ## Tag lines -/

theorem isPlainName_mem {nm : Str} (h : isPlainName nm = true) {c : Char} (hc : c ∈ nm) :
    c ≠ '<' ∧ c ≠ '>' ∧ c ≠ '/' := by
  simp only [isPlainName, Bool.and_eq_true, List.all_eq_true, bne_iff_ne, ne_eq] at h
  obtain ⟨⟨h1, h2⟩, h3⟩ := h.1.1 c hc
  exact ⟨h1, h2, h3⟩

theorem isPlainName_ne {nm : Str} (h : isPlainName nm = true) :
    nm ≠ "script".toList ∧ nm ≠ "style".toList := by
  simp only [isPlainName, Bool.and_eq_true, bne_iff_ne, ne_eq] at h
  exact ⟨h.1.2, h.2⟩

/-- A name followed by `>` starts with another name followed by `>` only when
the two names are equal, as neither holds a `>`. -/
theorem startsWith_snoc_gt : ∀ (p nm : Str), (∀ c ∈ nm, c ≠ '>') → (∀ c ∈ p, c ≠ '>') →
    startsWith (nm ++ ['>']) (p ++ ['>']) = true → nm = p
  | [], [], _, _, _ => rfl
  | [], c :: r, hn, _, h => by
    simp only [List.nil_append, List.cons_append, startsWith, Bool.and_true, beq_iff_eq] at h
    exact absurd h (hn c (List.mem_cons_self _ _))
  | d :: p, [], _, hp, h => by
    simp only [List.nil_append, List.cons_append, startsWith, Bool.and_eq_true, beq_iff_eq] at h
    exact absurd h.1.symm (hp d (List.mem_cons_self _ _))
  | d :: p, c :: r, hn, hp, h => by
    simp only [List.cons_append, startsWith, Bool.and_eq_true, beq_iff_eq] at h
    rw [h.1, startsWith_snoc_gt p r (fun x hx => hn x (List.mem_cons_of_mem _ hx))
      (fun x hx => hp x (List.mem_cons_of_mem _ hx)) h.2]

theorem reOpenTagAt_of_ne_lt {c : Char} (r : Str) (h : c ≠ '<') : reOpenTagAt (c :: r) = false := by
  unfold reOpenTagAt
  split
  · rename_i heq; simp only [List.cons.injEq] at heq; exact absurd heq.1 h
  · rfl

theorem reSingleLineElement_no_lt : ∀ (s : Str), (∀ c ∈ s, c ≠ '<') →
    reSingleLineElement s = false
  | [], _ => rfl
  | c :: r, h => by
    rw [reSingleLineElement, reOpenTagAt_of_ne_lt r (h c (List.mem_cons_self _ _)),
      reSingleLineElement_no_lt r (fun x hx => h x (List.mem_cons_of_mem _ hx))]
    rfl

theorem snoc_gt_no_lt {nm : Str} (h : isPlainName nm = true) :
    ∀ c ∈ nm ++ ['>'], c ≠ '<' := by
  intro c hc
  rcases List.mem_append.mp hc with hc | hc
  · exact (isPlainName_mem h hc).1
  · simp only [List.mem_singleton] at hc; subst hc; decide

theorem reSingleLineElement_opening {nm : Str} (h : isPlainName nm = true) :
    reSingleLineElement (TagLine.render (.opening nm)) = false := by
  have hrest := reSingleLineElement_no_lt _ (snoc_gt_no_lt h)
  cases nm with
  | nil => decide
  | cons c r =>
    have hr : ∀ x ∈ r, (x != '>') = true := fun x hx => by
      simpa using (isPlainName_mem h (List.mem_cons_of_mem _ hx)).2.1
    have hd : List.dropWhile (fun x => x != '>') (r ++ ['>']) = ['>'] := by
      rw [List.dropWhile_append_of_pos hr]; rfl
    simp only [TagLine.render, List.cons_append] at hrest ⊢
    rw [reSingleLineElement, hrest, reOpenTagAt, hd]
    simp [reCloseTagAfter]

theorem reSingleLineElement_closing {nm : Str} (h : isPlainName nm = true) :
    reSingleLineElement (TagLine.render (.closing nm)) = false := by
  have hrest : reSingleLineElement ('/' :: (nm ++ ['>'])) = false :=
    reSingleLineElement_no_lt _ (fun c hc => by
      rcases List.mem_cons.mp hc with rfl | hc
      · decide
      · exact snoc_gt_no_lt h c hc)
  simp only [TagLine.render]
  rw [reSingleLineElement, hrest, reOpenTagAt]
  simp

theorem render_startsWith_lt (t : TagLine) : startsWith t.render ['<'] = true := by
  cases t <;> simp [TagLine.render, startsWith]

theorem opening_not_close {nm : Str} (h : isPlainName nm = true) :
    startsWith (TagLine.render (.opening nm)) "</".toList = false := by
  cases nm with
  | nil => decide
  | cons c r =>
    have := (isPlainName_mem h (List.mem_cons_self c r)).2.2
    simp [TagLine.render, startsWith, this]

theorem opening_not_script {nm : Str} (h : isPlainName nm = true) :
    startsWith (TagLine.render (.opening nm)) "<script>".toList = false ∧
    startsWith (TagLine.render (.opening nm)) "<style>".toList = false := by
  have hgt : ∀ c ∈ nm, c ≠ '>' := fun c hc => (isPlainName_mem h hc).2.1
  constructor
  · by_contra hcon
    have h1 : startsWith (nm ++ ['>']) ("script".toList ++ ['>']) = true := by
      simpa [TagLine.render, startsWith] using hcon
    exact (isPlainName_ne h).1 (startsWith_snoc_gt _ _ hgt (by decide) h1)
  · by_contra hcon
    have h1 : startsWith (nm ++ ['>']) ("style".toList ++ ['>']) = true := by
      simpa [TagLine.render, startsWith] using hcon
    exact (isPlainName_ne h).2 (startsWith_snoc_gt _ _ hgt (by decide) h1)

theorem closing_not_script {nm : Str} (h : isPlainName nm = true) :
    startsWith (TagLine.render (.closing nm)) "</script>".toList = false ∧
    startsWith (TagLine.render (.closing nm)) "</style>".toList = false := by
  have hgt : ∀ c ∈ nm, c ≠ '>' := fun c hc => (isPlainName_mem h hc).2.1
  constructor
  · by_contra hcon
    have h1 : startsWith (nm ++ ['>']) ("script".toList ++ ['>']) = true := by
      simpa [TagLine.render, startsWith] using hcon
    exact (isPlainName_ne h).1 (startsWith_snoc_gt _ _ hgt (by decide) h1)
  · by_contra hcon
    have h1 : startsWith (nm ++ ['>']) ("style".toList ++ ['>']) = true := by
      simpa [TagLine.render, startsWith] using hcon
    exact (isPlainName_ne h).2 (startsWith_snoc_gt _ _ hgt (by decide) h1)

theorem startsWith_self : ∀ (s : Str), startsWith s s = true
  | [] => rfl
  | c :: r => by simp [startsWith, startsWith_self r]

theorem render_not_marker {t : TagLine} (h : isPlainName t.name = true) :
    isMarker t.render = false := by
  rw [isMarker_false_iff]
  cases t with
  | opening nm =>
    have h : isPlainName nm = true := h
    have h1 := opening_not_script h
    have h2 := opening_not_close h
    refine ⟨?_, ?_, ?_, ?_⟩ <;> intro heq <;> rw [heq] at h1 h2
    · exact absurd h1.1 (by decide)
    · exact absurd h2 (by decide)
    · exact absurd h1.2 (by decide)
    · exact absurd h2 (by decide)
  | closing nm =>
    have h : isPlainName nm = true := h
    have h1 := closing_not_script h
    refine ⟨?_, ?_, ?_, ?_⟩ <;> intro heq
    · have : startsWith (TagLine.render (.closing nm)) "</".toList = true := by
        simp [TagLine.render, startsWith]
      rw [heq] at this; exact absurd this (by decide)
    · rw [heq] at h1; exact absurd h1.1 (by decide)
    · have : startsWith (TagLine.render (.closing nm)) "</".toList = true := by
        simp [TagLine.render, startsWith]
      rw [heq] at this; exact absurd this (by decide)
    · rw [heq] at h1; exact absurd h1.2 (by decide)

theorem opening_endsWith {nm : Str} (h : isPlainName nm = true) :
    endsWith (TagLine.render (.opening nm)) "/>".toList = false ∧
    endsWith (TagLine.render (.opening nm)) ['>'] = true := by
  constructor
  · cases hr : nm.reverse with
    | nil => simp [endsWith, TagLine.render, hr, startsWith]
    | cons c r =>
      have hc : c ∈ nm := by
        rw [← List.mem_reverse, hr]; exact List.mem_cons_self _ _
      have := (isPlainName_mem h hc).2.2
      simp [endsWith, TagLine.render, hr, startsWith, this]
  · simp [endsWith, TagLine.render, startsWith]

/-- An opening tag line outside blocks: emitted at the current level, which
then rises by one. -/
theorem stepTrimmed_opening (st : FmtState) {nm : Str} (h : isPlainName nm = true)
    (hs : st.inScriptBlock = false) (hy : st.inStyleBlock = false) :
    stepTrimmed st (TagLine.render (.opening nm)) =
      { st with
        formattedLines := st.formattedLines ++
          [tabs st.indentLevel ++ TagLine.render (.opening nm)]
        indentLevel := st.indentLevel + 1
        inJSXContext := true } := by
  have hm := render_not_marker (t := .opening nm) h
  have hne : TagLine.render (.opening nm) ≠ [] := by simp [TagLine.render]
  have hlt := render_startsWith_lt (.opening nm)
  have h1 := opening_not_script h
  have h2 := opening_not_close h
  have h3 := reSingleLineElement_opening h
  have h4 := opening_endsWith h
  have hjl : isJSXLine (TagLine.render (.opening nm)) = true := by
    unfold isJSXLine; rw [hlt, h1.1, h1.2]; rfl
  have hjc : isJSXClose (TagLine.render (.opening nm)) = false := by
    unfold isJSXClose; rw [h2]; rfl
  rw [stepTrimmed_other st hne hm]
  simp only [hs, hy, normalLine, markJSX, dispatch, hjl, hjc, h2, h3, h4.1, h4.2,
    Bool.false_eq_true, if_false, if_true, Bool.true_or, Bool.not_true, Bool.and_false,
    Bool.false_and, Bool.not_false, Bool.and_true, Bool.and_self]

/-- A closing tag line outside blocks: the level drops by one, not below 0,
and the line is emitted at the new level. -/
theorem stepTrimmed_closing (st : FmtState) {nm : Str} (h : isPlainName nm = true)
    (hs : st.inScriptBlock = false) (hy : st.inStyleBlock = false) :
    stepTrimmed st (TagLine.render (.closing nm)) =
      { st with
        formattedLines := st.formattedLines ++
          [tabs (max 0 (st.indentLevel - 1)) ++ TagLine.render (.closing nm)]
        indentLevel := max 0 (st.indentLevel - 1)
        inJSXContext := true } := by
  have hm := render_not_marker (t := .closing nm) h
  have hne : TagLine.render (.closing nm) ≠ [] := by simp [TagLine.render]
  have hlt := render_startsWith_lt (.closing nm)
  have h1 := closing_not_script h
  have h2 : startsWith (TagLine.render (.closing nm)) "</".toList = true := by
    simp [TagLine.render, startsWith]
  have h3 := reSingleLineElement_closing h
  have hjc : isJSXClose (TagLine.render (.closing nm)) = true := by
    unfold isJSXClose; rw [h2, h1.1, h1.2]; rfl
  rw [stepTrimmed_other st hne hm]
  simp only [hs, hy, normalLine, markJSX, dispatch, hjc, h2, h3,
    Bool.false_eq_true, if_false, if_true, Bool.or_true, Bool.not_true, Bool.and_false,
    Bool.false_and, Bool.not_false, Bool.and_true, Bool.and_self]

/-- Properly nested tag lines read outside blocks, from a stack of open tags:
every line at its depth, and the level back to what it was below the stack. -/
theorem run_nested : ∀ (tags : List TagLine) (stk : List Str) (st : FmtState)
    (lines : List Str) (n : Nat),
    st.indentLevel = (n + stk.length : Nat) →
    st.inScriptBlock = false → st.inStyleBlock = false →
    (∀ t ∈ tags, isPlainName t.name = true) →
    lines.map trim = tags.map TagLine.render →
    properlyNested stk tags = true →
    (run st lines).formattedLines = st.formattedLines ++
      List.zipWith (fun t d => List.replicate (n + d) '\t' ++ t.render) tags
        (nestingDepths stk.length tags) ∧
    (run st lines).indentLevel = n
  | [], stk, st, lines, n, hn, _, _, _, hl, hp => by
    have hl : lines = [] := by simpa using hl
    have hs : stk = [] := by simpa [properlyNested] using hp
    subst hl; subst hs
    simp [run_nil, nestingDepths, hn]
  | .opening nm :: rest, stk, st, lines, n, hn, hs, hy, hnames, hl, hp => by
    cases lines with
    | nil => simp at hl
    | cons l ls =>
      simp only [List.map_cons, List.cons.injEq] at hl
      have hnm : isPlainName nm = true := hnames (.opening nm) (List.mem_cons_self _ _)
      have hstep := stepTrimmed_opening st hnm hs hy
      have ih := run_nested rest (nm :: stk) (step st l) ls n
        (by rw [step, hl.1, hstep]; simp only [List.length_cons, hn]; push_cast; ring)
        (by rw [step, hl.1, hstep]; exact hs) (by rw [step, hl.1, hstep]; exact hy)
        (fun t ht => hnames t (List.mem_cons_of_mem _ ht)) hl.2
        (by simpa [properlyNested] using hp)
      rw [run_cons, ih.1, ih.2]
      refine ⟨?_, rfl⟩
      rw [step, hl.1, hstep]
      simp only [nestingDepths, List.zipWith_cons_cons, List.length_cons, hn, tabs_natCast,
        List.append_assoc, List.singleton_append]
  | .closing nm :: rest, [], st, lines, n, hn, hs, hy, hnames, hl, hp => by
    simp [properlyNested] at hp
  | .closing nm :: rest, m :: stk, st, lines, n, hn, hs, hy, hnames, hl, hp => by
    cases lines with
    | nil => simp at hl
    | cons l ls =>
      simp only [List.map_cons, List.cons.injEq] at hl
      have hnm : isPlainName nm = true := hnames (.closing nm) (List.mem_cons_self _ _)
      have hstep := stepTrimmed_closing st hnm hs hy
      have hlev : max 0 (st.indentLevel - 1) = ((n + stk.length : Nat) : Int) := by
        rw [hn]; simp only [List.length_cons]; push_cast; omega
      have hp2 : properlyNested stk rest = true := by
        simp only [properlyNested, Bool.and_eq_true] at hp; exact hp.2
      have ih := run_nested rest stk (step st l) ls n
        (by rw [step, hl.1, hstep]; exact hlev)
        (by rw [step, hl.1, hstep]; exact hs) (by rw [step, hl.1, hstep]; exact hy)
        (fun t ht => hnames t (List.mem_cons_of_mem _ ht)) hl.2 hp2
      rw [run_cons, ih.1, ih.2]
      refine ⟨?_, rfl⟩
      rw [step, hl.1, hstep]
      simp only [nestingDepths, List.zipWith_cons_cons, List.length_cons, hlev, tabs_natCast,
        List.append_assoc, List.singleton_append, Nat.add_sub_cancel]

/-! ## Splitting, joining and trimming -/

theorem splitNL_ne_nil : ∀ (t : Str), splitNL t ≠ []
  | [] => by simp [splitNL]
  | c :: cs => by
    unfold splitNL
    split_ifs
    · simp
    · split <;> simp

theorem splitNL_no_nl : ∀ (t : Str), ∀ l ∈ splitNL t, '\n' ∉ l
  | [], l, hl => by
    simp only [splitNL, List.mem_singleton] at hl; subst hl; simp
  | c :: cs, l, hl => by
    have ih := splitNL_no_nl cs
    unfold splitNL at hl
    split_ifs at hl with hc
    · rcases List.mem_cons.mp hl with rfl | hl
      · simp
      · exact ih l hl
    · revert hl
      split
      · intro hl
        simp only [List.mem_singleton] at hl; subst hl
        simpa using fun h => hc h.symm
      · rename_i x xs heq
        intro hl
        rcases List.mem_cons.mp hl with rfl | hl
        · have := ih x (by rw [heq]; exact List.mem_cons_self _ _)
          simp only [List.mem_cons, not_or]
          exact ⟨fun h => hc h.symm, this⟩
        · exact ih l (by rw [heq]; exact List.mem_cons_of_mem _ hl)

theorem splitNL_of_no_nl : ∀ (l : Str), '\n' ∉ l → splitNL l = [l]
  | [], _ => rfl
  | c :: cs, h => by
    simp only [List.mem_cons, not_or] at h
    have hc : c ≠ '\n' := fun e => h.1 e.symm
    rw [splitNL, if_neg hc, splitNL_of_no_nl cs h.2]

theorem splitNL_append_nl : ∀ (l rest : Str), '\n' ∉ l →
    splitNL (l ++ '\n' :: rest) = l :: splitNL rest
  | [], rest, _ => by simp [splitNL]
  | c :: cs, rest, h => by
    simp only [List.mem_cons, not_or] at h
    have hc : c ≠ '\n' := fun e => h.1 e.symm
    rw [List.cons_append, splitNL, if_neg hc, splitNL_append_nl cs rest h.2]

theorem splitNL_joinNL : ∀ (L : List Str), L ≠ [] → (∀ l ∈ L, '\n' ∉ l) →
    splitNL (joinNL L) = L
  | [], h, _ => absurd rfl h
  | [l], _, hl => by
    rw [joinNL]; exact splitNL_of_no_nl l (hl l (List.mem_singleton_self l))
  | l :: m :: r, _, hl => by
    rw [joinNL, splitNL_append_nl l _ (hl l (List.mem_cons_self _ _)),
      splitNL_joinNL (m :: r) (by simp) (fun x hx => hl x (List.mem_cons_of_mem _ hx))]

theorem trim_eq (s : Str) : trim s = (s.dropWhile isWhiteSpace).rdropWhile isWhiteSpace := rfl

theorem trim_sublist (s : Str) : (trim s).Sublist s :=
  ((List.rdropWhile_prefix isWhiteSpace _).sublist).trans
    (List.dropWhile_suffix isWhiteSpace).sublist

theorem trim_no_nl {s : Str} (h : '\n' ∉ s) : '\n' ∉ trim s :=
  fun hm => h ((trim_sublist s).subset hm)

theorem trim_nil : trim [] = [] := rfl

/-- What `trim` returns starts with no white space. -/
theorem trim_head (s : Str) : (trim s).dropWhile isWhiteSpace = trim s := by
  obtain ⟨r, hr⟩ : trim s <+: s.dropWhile isWhiteSpace :=
    List.rdropWhile_prefix isWhiteSpace _
  generalize trim s = u at hr ⊢
  cases u with
  | nil => rfl
  | cons c cs =>
    have hne : s.dropWhile isWhiteSpace ≠ [] := by rw [← hr]; simp
    have h1 := List.head_dropWhile_not isWhiteSpace s hne
    have h2 : (s.dropWhile isWhiteSpace).head hne = c := by simp [← hr]
    rw [h2] at h1
    simp [List.dropWhile, h1]

theorem trim_trim (s : Str) : trim (trim s) = trim s := by
  rw [trim_eq (trim s), trim_head, trim_eq s, List.rdropWhile_idempotent]

theorem isWhiteSpace_tab : isWhiteSpace '\t' = true := by decide

/-- Leading tabs are trimmed away. -/
theorem trim_tabs_append (k : Int) (t : Str) : trim (tabs k ++ t) = trim t := by
  have : (tabs k ++ t).dropWhile isWhiteSpace = t.dropWhile isWhiteSpace := by
    apply List.dropWhile_append_of_pos
    intro a ha
    rw [tabs, List.mem_replicate] at ha
    rw [ha.2]; exact isWhiteSpace_tab
  rw [trim_eq, this, ← trim_eq]

theorem trim_tabs_of_clean (k : Int) {t : Str} (h : trim t = t) : trim (tabs k ++ t) = t := by
  rw [trim_tabs_append, h]

theorem tabs_no_nl (k : Int) {t : Str} (h : '\n' ∉ t) : '\n' ∉ tabs k ++ t := by
  intro hm
  rcases List.mem_append.mp hm with hm | hm
  · rw [tabs, List.mem_replicate] at hm
    exact absurd hm.2 (by decide)
  · exact h hm

theorem cleanLine_trim {l : Str} (h : '\n' ∉ l) : CleanLine (trim l) :=
  ⟨trim_trim l, trim_no_nl h⟩

theorem cleanLine_nil : CleanLine [] := ⟨rfl, by simp⟩

/-! ## The sub-formatters as line listings -/

theorem foldl_jsStep_formatted (base : Int) : ∀ (L : List Str) (st : SubState),
    (L.foldl (jsStep base) st).formatted =
      st.formatted ++ subLines dedentBefore jsIndentAfter base st.indentLevel L
  | [], st => by simp [subLines]
  | l :: r, st => by
    rw [List.foldl_cons, foldl_jsStep_formatted base r, subLines, jsStep]
    split_ifs <;> simp

theorem foldl_cssStep_formatted (base : Int) : ∀ (L : List Str) (st : SubState),
    (L.foldl (cssStep base) st).formatted =
      st.formatted ++ subLines cssDedentBefore cssIndentAfter base st.indentLevel L
  | [], st => by simp [subLines]
  | l :: r, st => by
    rw [List.foldl_cons, foldl_cssStep_formatted base r, subLines, cssStep]
    split_ifs <;> simp

theorem formatJavaScript_eq (code : Str) (base : Int) :
    formatJavaScript code base =
      joinNL (subLines dedentBefore jsIndentAfter base 0 (splitNL code)) := by
  rw [formatJavaScript, foldl_jsStep_formatted]; rfl

theorem formatCSS_eq (code : Str) (base : Int) :
    formatCSS code base =
      joinNL (subLines cssDedentBefore cssIndentAfter base 0 (splitNL code)) := by
  rw [formatCSS, foldl_cssStep_formatted]; rfl

theorem isEmpty_eq_false_of_ne {t : Str} (h : t ≠ []) : t.isEmpty = false := by
  cases t with
  | nil => exact absurd rfl h
  | cons c r => rfl

theorem subLines_ne_nil (e a : Int → Str → Int) (b lvl : Int) {L : List Str} (h : L ≠ []) :
    subLines e a b lvl L ≠ [] := by
  cases L with
  | nil => exact absurd rfl h
  | cons l r => rw [subLines]; split_ifs <;> simp

theorem subLines_no_nl (e a : Int → Str → Int) (b : Int) : ∀ (L : List Str) (lvl : Int),
    (∀ x ∈ L, '\n' ∉ x) → ∀ y ∈ subLines e a b lvl L, '\n' ∉ y
  | [], _, _, y, hy => by simp [subLines] at hy
  | l :: r, lvl, h, y, hy => by
    have hl := h l (List.mem_cons_self _ _)
    have hr : ∀ x ∈ r, '\n' ∉ x := fun x hx => h x (List.mem_cons_of_mem _ hx)
    rw [subLines] at hy
    split_ifs at hy
    · rcases List.mem_cons.mp hy with rfl | hy
      · simp
      · exact subLines_no_nl e a b r _ hr y hy
    · rcases List.mem_cons.mp hy with rfl | hy
      · exact tabs_no_nl _ (trim_no_nl hl)
      · exact subLines_no_nl e a b r _ hr y hy

theorem subLines_map_trim (e a : Int → Str → Int) (b : Int) : ∀ (L : List Str) (lvl : Int),
    (∀ x ∈ L, trim x = x) → (subLines e a b lvl L).map trim = L
  | [], _, _ => by simp [subLines]
  | l :: r, lvl, h => by
    have hl := h l (List.mem_cons_self _ _)
    have hr : ∀ x ∈ r, trim x = x := fun x hx => h x (List.mem_cons_of_mem _ hx)
    rw [subLines]
    split_ifs with hb
    · rw [List.map_cons, subLines_map_trim e a b r _ hr, trim_nil]
      rw [hl] at hb
      rw [List.isEmpty_iff.mp hb]
    · rw [List.map_cons, subLines_map_trim e a b r _ hr, trim_tabs_append, trim_trim, hl]

theorem subLines_filter (e a : Int → Str → Int) (b : Int) : ∀ (L : List Str) (lvl : Int),
    (∀ x ∈ L, trim x = x) →
    (subLines e a b lvl L).filter (fun l => !l.isEmpty) =
      subLines e a b lvl (L.filter (fun l => !l.isEmpty))
  | [], _, _ => by simp [subLines]
  | l :: r, lvl, h => by
    have hl := h l (List.mem_cons_self _ _)
    have hr : ∀ x ∈ r, trim x = x := fun x hx => h x (List.mem_cons_of_mem _ hx)
    rw [subLines]
    split_ifs with hb
    · have hle : l.isEmpty = true := by rw [hl] at hb; exact hb
      rw [List.filter_cons_of_neg (by simp), List.filter_cons_of_neg (by simp [hle]),
        subLines_filter e a b r _ hr]
    · have hle : l.isEmpty = false := by rw [hl] at hb; simpa using hb
      have hne : (tabs (b + e lvl (trim l)) ++ trim l).isEmpty = false := by
        rw [hl]
        cases l with
        | nil => simp at hle
        | cons c cs => simp
      rw [List.filter_cons_of_pos (by simp [hne]), List.filter_cons_of_pos (by simp [hle]),
        subLines, if_neg hb, subLines_filter e a b r _ hr]

theorem subLines_all_nonempty (e a : Int → Str → Int) (b : Int) : ∀ (L : List Str) (lvl : Int),
    (∀ x ∈ L, trim x = x) → (∀ x ∈ L, x.isEmpty = false) →
    ∀ y ∈ subLines e a b lvl L, y.isEmpty = false
  | [], _, _, _, y, hy => by simp [subLines] at hy
  | l :: r, lvl, h, hn, y, hy => by
    have hl := h l (List.mem_cons_self _ _)
    have hle := hn l (List.mem_cons_self _ _)
    rw [subLines, hl, if_neg (by simp [hle])] at hy
    rcases List.mem_cons.mp hy with rfl | hy
    · cases l with
      | nil => simp at hle
      | cons c cs => simp
    · exact subLines_all_nonempty e a b r _ (fun x hx => h x (List.mem_cons_of_mem _ hx))
        (fun x hx => hn x (List.mem_cons_of_mem _ hx)) y hy

theorem keptLines_joinNL {F : List Str} (hne : F ≠ []) (hnl : ∀ y ∈ F, '\n' ∉ y) :
    keptLines (joinNL F) =
      F.filter (fun line => !line.isEmpty || includes (joinNL F) ['\n', '\n']) := by
  rw [keptLines, splitNL_joinNL F hne hnl]

theorem keptLines_nil : keptLines [] = [] := by decide

/-- The lines kept from a sub-formatted block are all of its lines or its
non-empty lines. -/
theorem keptLines_cases {F : List Str} (hne : F ≠ []) (hnl : ∀ y ∈ F, '\n' ∉ y) :
    keptLines (joinNL F) = F ∨ keptLines (joinNL F) = F.filter (fun l => !l.isEmpty) := by
  rw [keptLines_joinNL hne hnl]
  cases includes (joinNL F) ['\n', '\n'] with
  | true => left; simp
  | false => right; simp

theorem keptLines_filter {F : List Str} (hne : F ≠ []) (hnl : ∀ y ∈ F, '\n' ∉ y) :
    (keptLines (joinNL F)).filter (fun l => !l.isEmpty) = F.filter (fun l => !l.isEmpty) := by
  rcases keptLines_cases hne hnl with h | h <;> rw [h]
  rw [List.filter_filter]; simp

/-- The kept lines of a sub-formatted block, trimmed, are lines of the block
that was formatted. -/
theorem kept_trim_mem (e a : Int → Str → Int) (b : Int) (code : Str)
    (hclean : ∀ x ∈ splitNL code, trim x = x) :
    ∀ k ∈ keptLines (joinNL (subLines e a b 0 (splitNL code))), trim k ∈ splitNL code := by
  intro k hk
  have hne := subLines_ne_nil e a b 0 (splitNL_ne_nil code)
  have hnl := subLines_no_nl e a b (splitNL code) 0 (splitNL_no_nl code)
  have hmem : k ∈ subLines e a b 0 (splitNL code) := by
    rcases keptLines_cases hne hnl with h | h <;> rw [h] at hk
    · exact hk
    · exact (List.mem_filter.mp hk).1
  have := List.mem_map_of_mem trim hmem
  rwa [subLines_map_trim e a b _ _ hclean] at this

/-- Formatting again what was kept of a sub-formatted block, trimmed, gives
the same kept lines. -/
theorem kept_idem (e a : Int → Str → Int) (b : Int) (code : Str)
    (hclean : ∀ x ∈ splitNL code, trim x = x) :
    keptLines (joinNL (subLines e a b 0 (splitNL (joinNL
      ((keptLines (joinNL (subLines e a b 0 (splitNL code)))).map trim))))) =
    keptLines (joinNL (subLines e a b 0 (splitNL code))) := by
  have hne := subLines_ne_nil e a b 0 (splitNL_ne_nil code)
  have hnl := subLines_no_nl e a b (splitNL code) 0 (splitNL_no_nl code)
  rcases keptLines_cases hne hnl with h | h
  · rw [h, subLines_map_trim e a b _ _ hclean,
      splitNL_joinNL _ (splitNL_ne_nil code) (splitNL_no_nl code), h]
  · rw [h, subLines_filter e a b _ _ hclean]
    have hclean2 : ∀ x ∈ (splitNL code).filter (fun l => !l.isEmpty), trim x = x :=
      fun x hx => hclean x (List.mem_filter.mp hx).1
    have hnl2 : ∀ x ∈ (splitNL code).filter (fun l => !l.isEmpty), '\n' ∉ x :=
      fun x hx => splitNL_no_nl code x (List.mem_filter.mp hx).1
    rw [subLines_map_trim e a b _ _ hclean2]
    by_cases hS : (splitNL code).filter (fun l => !l.isEmpty) = []
    · rw [hS]
      simp only [joinNL, splitNL, subLines, trim_nil, List.isEmpty_nil, if_true]
      exact keptLines_nil
    · rw [splitNL_joinNL _ hS hnl2]
      have hne2 := subLines_ne_nil e a b 0 hS
      have hnl3 := subLines_no_nl e a b _ 0 hnl2
      rw [keptLines_joinNL hne2 hnl3, List.filter_eq_self]
      intro y hy
      have := subLines_all_nonempty e a b _ 0 hclean2
        (fun x hx => by simpa using (List.mem_filter.mp hx).2) y hy
      simp [this]

theorem splitNL_joinNL_mem {S : List Str} (hnl : ∀ x ∈ S, '\n' ∉ x) :
    ∀ y ∈ splitNL (joinNL S), y = [] ∨ y ∈ S := by
  intro y hy
  by_cases hS : S = []
  · subst hS
    simp only [joinNL, splitNL, List.mem_singleton] at hy
    exact Or.inl hy
  · rw [splitNL_joinNL S hS hnl] at hy
    exact Or.inr hy

/-! ## Lines of the main loop -/

/-- Every branch of lines 223-269 emits the trimmed line behind some tabs. -/
theorem dispatch_formattedLines (st : FmtState) (t : Str) :
    ∃ k : Int, (dispatch st t).formattedLines = st.formattedLines ++ [tabs k ++ t] := by
  unfold dispatch statementBranch fallbackBranch
  split_ifs <;> exact ⟨_, rfl⟩

theorem normalLine_formattedLines (st : FmtState) (t : Str) :
    ∃ k : Int, (normalLine st t).formattedLines = st.formattedLines ++ [tabs k ++ t] :=
  dispatch_formattedLines (markJSX st t) t

theorem isMarker_cases {t : Str} (h : isMarker t = true) :
    t = "<script>".toList ∨ t = "</script>".toList ∨
    t = "<style>".toList ∨ t = "</style>".toList := by
  by_contra hcon
  push_neg at hcon
  have := isMarker_false_iff.mpr hcon
  rw [h] at this; cases this

/-- The loop only appends to the lines already emitted. -/
theorem stepTrimmed_formattedLines (st : FmtState) (t : Str) :
    ∃ rest, (stepTrimmed st t).formattedLines = st.formattedLines ++ rest := by
  by_cases hnil : t = []
  · subst hnil; rw [stepTrimmed_nil]
    split_ifs
    · exact ⟨[], by simp⟩
    · exact ⟨[], by simp⟩
    · exact ⟨_, rfl⟩
  by_cases hm : isMarker t = false
  · rw [stepTrimmed_other st hnil hm]
    split_ifs
    · exact ⟨[], by simp⟩
    · exact ⟨[], by simp⟩
    · obtain ⟨k, hk⟩ := normalLine_formattedLines st t
      exact ⟨_, hk⟩
  · rcases isMarker_cases (by simpa using hm) with rfl | rfl | rfl | rfl
    · rw [stepTrimmed_scriptOpen]; exact ⟨_, rfl⟩
    · rw [stepTrimmed_scriptClose]; exact ⟨_, List.append_assoc _ _ _⟩
    · rw [stepTrimmed_styleOpen]; exact ⟨_, rfl⟩
    · rw [stepTrimmed_styleClose]; exact ⟨_, List.append_assoc _ _ _⟩

theorem run_formattedLines (L : List Str) (st : FmtState) :
    ∃ rest, (run st L).formattedLines = st.formattedLines ++ rest := by
  induction L generalizing st with
  | nil => exact ⟨[], by simp [run_nil]⟩
  | cons l ls ih =>
    obtain ⟨r1, h1⟩ := stepTrimmed_formattedLines st (trim l)
    obtain ⟨r2, h2⟩ := ih (step st l)
    refine ⟨r1 ++ r2, ?_⟩
    rw [run_cons, h2, step, h1, List.append_assoc]

theorem isMarker_nil : isMarker [] = false := by decide

/-- Inside a script block, lines that are no marker are buffered, trimmed. -/
theorem run_buffer_script : ∀ (body : List Str) (st : FmtState),
    st.inScriptBlock = true → (∀ l ∈ body, isMarker (trim l) = false) →
    run st body = { st with scriptLines := st.scriptLines ++ body.map trim }
  | [], st, _, _ => by simp [run_nil]
  | l :: ls, st, hs, hb => by
    have hl := hb l (List.mem_cons_self _ _)
    have hstep : step st l = { st with scriptLines := st.scriptLines ++ [trim l] } := by
      rw [step]
      by_cases hnil : trim l = []
      · rw [hnil, stepTrimmed_nil, if_pos hs]
      · rw [stepTrimmed_other st hnil hl, if_pos hs]
    have ih := run_buffer_script ls { st with scriptLines := st.scriptLines ++ [trim l] } hs
      (fun x hx => hb x (List.mem_cons_of_mem _ hx))
    rw [run_cons, hstep, ih]
    simp

/-- Inside a style block (and no script block), lines that are no marker are
buffered, trimmed. -/
theorem run_buffer_style : ∀ (body : List Str) (st : FmtState),
    st.inScriptBlock = false → st.inStyleBlock = true →
    (∀ l ∈ body, isMarker (trim l) = false) →
    run st body = { st with styleLines := st.styleLines ++ body.map trim }
  | [], st, _, _, _ => by simp [run_nil]
  | l :: ls, st, hs, hy, hb => by
    have hl := hb l (List.mem_cons_self _ _)
    have hstep : step st l = { st with styleLines := st.styleLines ++ [trim l] } := by
      rw [step]
      by_cases hnil : trim l = []
      · rw [hnil, stepTrimmed_nil, if_neg (by simp [hs]), if_pos hy]
      · rw [stepTrimmed_other st hnil hl, if_neg (by simp [hs]), if_pos hy]
    have ih := run_buffer_style ls { st with styleLines := st.styleLines ++ [trim l] } hs hy
      (fun x hx => hb x (List.mem_cons_of_mem _ hx))
    rw [run_cons, hstep, ih]
    simp

theorem jsIndentAfter_nonneg (lvl : Int) (t : Str) : 0 ≤ jsIndentAfter lvl t := by
  unfold jsIndentAfter; omega

theorem scriptTrace_nonneg : ∀ (L : List Str) (lvl : Int), 0 ≤ lvl →
    ∀ p ∈ scriptTrace lvl L, 0 ≤ p.1
  | [], _, _, p, hp => by simp [scriptTrace] at hp
  | t :: r, lvl, h, p, hp => by
    rw [scriptTrace] at hp
    split_ifs at hp
    · exact scriptTrace_nonneg r lvl h p hp
    · rcases List.mem_cons.mp hp with rfl | hp
      · exact dedentBefore_nonneg h t
      · exact scriptTrace_nonneg r _ (jsIndentAfter_nonneg lvl t) p hp

/-- The non-empty lines `formatJavaScript` emits are its trace, each line
behind base + level tabs. -/
theorem subLines_filter_trace (b : Int) : ∀ (L : List Str) (lvl : Int),
    (∀ x ∈ L, trim x = x) →
    (subLines dedentBefore jsIndentAfter b lvl L).filter (fun l => !l.isEmpty) =
      (scriptTrace lvl L).map (fun p => tabs (b + p.1) ++ p.2)
  | [], _, _ => by simp [subLines, scriptTrace]
  | l :: r, lvl, h => by
    have hl := h l (List.mem_cons_self _ _)
    have hr : ∀ x ∈ r, trim x = x := fun x hx => h x (List.mem_cons_of_mem _ hx)
    rw [subLines, scriptTrace, hl]
    split_ifs with hb
    · rw [List.filter_cons_of_neg (by simp), subLines_filter_trace b r _ hr]
    · have hne : (tabs (b + dedentBefore lvl l) ++ l).isEmpty = false := by
        cases l with
        | nil => simp at hb
        | cons c cs => simp
      rw [List.filter_cons_of_pos (by simp [hne]), subLines_filter_trace b r _ hr]
      rfl

theorem scriptTrace_splitNL_joinNL {S : List Str} (hnl : ∀ x ∈ S, '\n' ∉ x) (lvl : Int) :
    scriptTrace lvl (splitNL (joinNL S)) = scriptTrace lvl S := by
  by_cases hS : S = []
  · subst hS; rfl
  · rw [splitNL_joinNL S hS hnl]

/-- A script block read from any state: what the loop appends. -/
theorem script_block_lines (st : FmtState) (o c : Str) (body : List Str)
    (ho : trim o = "<script>".toList) (hc : trim c = "</script>".toList)
    (hbody : ∀ l ∈ body, isMarker (trim l) = false) :
    (run st ((o :: body) ++ [c])).formattedLines =
      st.formattedLines ++ [tabs st.indentLevel ++ "<script>".toList] ++
        keptLines (formatJavaScript (joinNL (body.map trim)) (st.indentLevel + 1)) ++
        [tabs st.indentLevel ++ "</script>".toList] := by
  have hopen : (step st o).inScriptBlock = true := by
    rw [step, ho, stepTrimmed_scriptOpen]
  rw [run_snoc, run_cons, run_buffer_script body _ hopen hbody, step, hc,
    stepTrimmed_scriptClose, step, ho, stepTrimmed_scriptOpen]
  simp

/-- The non-blank lines kept from a script block are its trace. -/
theorem kept_script_filter (b : Int) {S : List Str} (hclean : ∀ x ∈ S, CleanLine x) :
    (keptLines (formatJavaScript (joinNL S) b)).filter (fun l => !l.isEmpty) =
      (scriptTrace 0 S).map (fun p => tabs (b + p.1) ++ p.2) := by
  have hnlS : ∀ x ∈ S, '\n' ∉ x := fun x hx => (hclean x hx).2
  have hcl : ∀ x ∈ splitNL (joinNL S), trim x = x := by
    intro x hx
    rcases splitNL_joinNL_mem hnlS x hx with rfl | hx
    · rfl
    · exact (hclean x hx).1
  rw [formatJavaScript_eq,
    keptLines_filter (subLines_ne_nil _ _ b 0 (splitNL_ne_nil _))
      (subLines_no_nl _ _ b _ 0 (splitNL_no_nl _)),
    subLines_filter_trace b _ 0 hcl, scriptTrace_splitNL_joinNL hnlS]

/-! ## A second pass over the output of a first pass -/

theorem keptLines_no_nl (f : Str) : ∀ x ∈ keptLines f, '\n' ∉ x :=
  fun x hx => splitNL_no_nl f x (List.mem_filter.mp hx).1

/-- No emitted line holds a line feed when no line read does. -/
theorem stepTrimmed_no_nl (st : FmtState) {t : Str} (ht : '\n' ∉ t)
    (h : ∀ x ∈ st.formattedLines, '\n' ∉ x) :
    ∀ x ∈ (stepTrimmed st t).formattedLines, '\n' ∉ x := by
  by_cases hnil : t = []
  · subst hnil; rw [stepTrimmed_nil]
    split_ifs
    · exact h
    · exact h
    · intro x hx
      rcases List.mem_append.mp hx with hx | hx
      · exact h x hx
      · simp only [List.mem_singleton] at hx; subst hx; simp
  by_cases hm : isMarker t = false
  · rw [stepTrimmed_other st hnil hm]
    split_ifs
    · exact h
    · exact h
    · obtain ⟨k, hk⟩ := normalLine_formattedLines st t
      rw [hk]
      intro x hx
      rcases List.mem_append.mp hx with hx | hx
      · exact h x hx
      · simp only [List.mem_singleton] at hx; subst hx; exact tabs_no_nl k ht
  · intro x hx
    rcases isMarker_cases (by simpa using hm) with rfl | rfl | rfl | rfl
    · rw [stepTrimmed_scriptOpen] at hx
      rcases List.mem_append.mp hx with hx | hx
      · exact h x hx
      · simp only [List.mem_singleton] at hx; subst hx; exact tabs_no_nl _ ht
    · rw [stepTrimmed_scriptClose] at hx
      rcases List.mem_append.mp hx with hx | hx
      · rcases List.mem_append.mp hx with hx | hx
        · exact h x hx
        · exact keptLines_no_nl _ x hx
      · simp only [List.mem_singleton] at hx; subst hx; exact tabs_no_nl _ ht
    · rw [stepTrimmed_styleOpen] at hx
      rcases List.mem_append.mp hx with hx | hx
      · exact h x hx
      · simp only [List.mem_singleton] at hx; subst hx; exact tabs_no_nl _ ht
    · rw [stepTrimmed_styleClose] at hx
      rcases List.mem_append.mp hx with hx | hx
      · rcases List.mem_append.mp hx with hx | hx
        · exact h x hx
        · exact keptLines_no_nl _ x hx
      · simp only [List.mem_singleton] at hx; subst hx; exact tabs_no_nl _ ht

theorem run_no_nl : ∀ (L : List Str) (st : FmtState), (∀ l ∈ L, '\n' ∉ l) →
    (∀ x ∈ st.formattedLines, '\n' ∉ x) → ∀ x ∈ (run st L).formattedLines, '\n' ∉ x
  | [], _, _, h => h
  | l :: ls, st, hL, h =>
    run_no_nl ls (step st l) (fun x hx => hL x (List.mem_cons_of_mem _ hx))
      (stepTrimmed_no_nl st (trim_no_nl (hL l (List.mem_cons_self _ _))) h)

/-- Outside blocks every line read makes the loop emit at least one line. -/
theorem stepTrimmed_emits (st : FmtState) (t : Str)
    (hs : st.inScriptBlock = false) (hy : st.inStyleBlock = false) :
    (stepTrimmed st t).formattedLines ≠ [] := by
  by_cases hnil : t = []
  · subst hnil; rw [stepTrimmed_nil]; simp [hs, hy]
  by_cases hm : isMarker t = false
  · rw [stepTrimmed_other st hnil hm]
    obtain ⟨k, hk⟩ := normalLine_formattedLines st t
    simp [hs, hy, hk]
  · rcases isMarker_cases (by simpa using hm) with rfl | rfl | rfl | rfl
    · rw [stepTrimmed_scriptOpen]; simp
    · rw [stepTrimmed_scriptClose]; simp
    · rw [stepTrimmed_styleOpen]; simp
    · rw [stepTrimmed_styleClose]; simp

theorem run_initState_ne_nil {L : List Str} (h : L ≠ []) :
    (run initState L).formattedLines ≠ [] := by
  cases L with
  | nil => exact absurd rfl h
  | cons l ls =>
    obtain ⟨rest, hr⟩ := run_formattedLines ls (step initState l)
    rw [run_cons, hr]
    have := stepTrimmed_emits initState (trim l) rfl rfl
    intro hcon
    exact this (List.append_eq_nil.mp hcon).1

/-- Outside blocks, a line that is no closing marker makes the loop emit one
line, which trims back to the line read. -/
theorem stepTrimmed_emits_one (st : FmtState) {t : Str} (ht : trim t = t)
    (hs : st.inScriptBlock = false) (hy : st.inStyleBlock = false)
    (h1 : t ≠ "</script>".toList) (h2 : t ≠ "</style>".toList) :
    ∃ x, (stepTrimmed st t).formattedLines = st.formattedLines ++ [x] ∧ trim x = t := by
  by_cases hnil : t = []
  · subst hnil; rw [stepTrimmed_nil]
    exact ⟨[], by simp [hs, hy], rfl⟩
  by_cases hm : isMarker t = false
  · rw [stepTrimmed_other st hnil hm]
    obtain ⟨k, hk⟩ := normalLine_formattedLines st t
    exact ⟨tabs k ++ t, by simp [hs, hy, hk], trim_tabs_of_clean k ht⟩
  · rcases isMarker_cases (by simpa using hm) with rfl | rfl | rfl | rfl
    · rw [stepTrimmed_scriptOpen]; exact ⟨_, rfl, trim_tabs_of_clean _ ht⟩
    · exact absurd rfl h1
    · rw [stepTrimmed_styleOpen]; exact ⟨_, rfl, trim_tabs_of_clean _ ht⟩
    · exact absurd rfl h2

/-- Outside blocks, the second pass follows the first on such a line. -/
theorem second_pass_normal (s : FmtState) {t : Str} (ht : trim t = t)
    (hs : s.inScriptBlock = false) (hy : s.inStyleBlock = false)
    (h1 : t ≠ "</script>".toList) (h2 : t ≠ "</style>".toList)
    (hrun : run initState s.formattedLines = s) :
    run initState (stepTrimmed s t).formattedLines = stepTrimmed s t := by
  obtain ⟨x, hx, hxt⟩ := stepTrimmed_emits_one s ht hs hy h1 h2
  rw [hx, run_snoc, hrun, step, hxt]

theorem nextMode_not_marker {m m2 : Mode} {t : Str} (h : nextMode m t = some m2)
    (hm : isMarker t = true) :
    (m = .normal ∧ t = "<script>".toList ∧ m2 = .script) ∨
    (m = .normal ∧ t = "<style>".toList ∧ m2 = .style) ∨
    (m = .script ∧ t = "</script>".toList ∧ m2 = .normal) ∨
    (m = .style ∧ t = "</style>".toList ∧ m2 = .normal) := by
  cases m <;> simp only [nextMode] at h <;> split_ifs at h <;> simp_all

theorem nextMode_of_not_marker {m m2 : Mode} {t : Str} (h : nextMode m t = some m2)
    (hm : isMarker t = false) : m2 = m := by
  obtain ⟨h1, h2, h3, h4⟩ := isMarker_false_iff.mp hm
  cases m <;> simp only [nextMode] at h <;> split_ifs at h <;> simp_all

theorem goodBuf_snoc {S : List Str} (h : GoodBuf S) {t : Str} (hc : CleanLine t)
    (hm : isMarker t = false) : GoodBuf (S ++ [t]) := by
  intro x hx
  rcases List.mem_append.mp hx with hx | hx
  · exact h x hx
  · simp only [List.mem_singleton] at hx; subst hx; exact ⟨hc, hm⟩

theorem goodBuf_split_clean {S : List Str} (h : GoodBuf S) :
    ∀ x ∈ splitNL (joinNL S), trim x = x := by
  intro x hx
  rcases splitNL_joinNL_mem (fun y hy => (h y hy).1.2) x hx with rfl | hx
  · rfl
  · exact (h x hx).1.1

theorem goodBuf_kept_not_marker (e a : Int → Str → Int) (b : Int) {S : List Str}
    (h : GoodBuf S) :
    ∀ k ∈ keptLines (joinNL (subLines e a b 0 (splitNL (joinNL S)))),
      isMarker (trim k) = false := by
  intro k hk
  have := kept_trim_mem e a b (joinNL S) (goodBuf_split_clean h) k hk
  rcases splitNL_joinNL_mem (fun y hy => (h y hy).1.2) _ this with h0 | hmem
  · rw [h0]; exact isMarker_nil
  · exact (h _ hmem).2

/-- Closing a script block: the second pass, which buffered the kept lines,
emits the same lines and reaches the same state. -/
theorem second_pass_scriptClose (s : FmtState) (hs : s.inScriptBlock = true)
    (hbuf : GoodBuf s.scriptLines)
    (hrun : run initState s.formattedLines = { s with scriptLines := [] }) :
    run initState (stepTrimmed s "</script>".toList).formattedLines =
      stepTrimmed s "</script>".toList := by
  have hk := goodBuf_kept_not_marker dedentBefore jsIndentAfter (s.scriptStartIndent + 1) hbuf
  have hid := kept_idem dedentBefore jsIndentAfter (s.scriptStartIndent + 1)
    (joinNL s.scriptLines) (goodBuf_split_clean hbuf)
  rw [← formatJavaScript_eq] at hk
  rw [← formatJavaScript_eq, ← formatJavaScript_eq] at hid
  have htrim : trim (tabs s.scriptStartIndent ++ "</script>".toList) = "</script>".toList :=
    trim_tabs_of_clean _ (by decide)
  rw [stepTrimmed_scriptClose]
  simp only
  rw [run_snoc, run_append, hrun,
    run_buffer_script _ { s with scriptLines := [] } hs hk, step, htrim,
    stepTrimmed_scriptClose]
  simp only [List.nil_append]
  rw [hid]

/-- Closing a style block, as `second_pass_scriptClose`. -/
theorem second_pass_styleClose (s : FmtState) (hs : s.inScriptBlock = false)
    (hy : s.inStyleBlock = true) (hbuf : GoodBuf s.styleLines)
    (hrun : run initState s.formattedLines = { s with styleLines := [] }) :
    run initState (stepTrimmed s "</style>".toList).formattedLines =
      stepTrimmed s "</style>".toList := by
  have hk := goodBuf_kept_not_marker cssDedentBefore cssIndentAfter (s.styleStartIndent + 1) hbuf
  have hid := kept_idem cssDedentBefore cssIndentAfter (s.styleStartIndent + 1)
    (joinNL s.styleLines) (goodBuf_split_clean hbuf)
  rw [← formatCSS_eq] at hk
  rw [← formatCSS_eq, ← formatCSS_eq] at hid
  have htrim : trim (tabs s.styleStartIndent ++ "</style>".toList) = "</style>".toList :=
    trim_tabs_of_clean _ (by decide)
  rw [stepTrimmed_styleClose]
  simp only
  rw [run_snoc, run_append, hrun,
    run_buffer_style _ { s with styleLines := [] } hs hy hk, step, htrim,
    stepTrimmed_styleClose]
  simp only [List.nil_append]
  rw [hid]

/-- One line of a text with well-formed blocks keeps the two passes linked. -/
theorem sim_step {m m2 : Mode} {s : FmtState} {l : Str} (hnl : '\n' ∉ l) (h : Sim m s)
    (hm : nextMode m (trim l) = some m2) : Sim m2 (step s l) := by
  have hclean := cleanLine_trim hnl
  by_cases hmk : isMarker (trim l) = false
  · -- a blank line or a line that is no marker
    have hm2 := nextMode_of_not_marker hm hmk
    subst hm2
    obtain ⟨_, h2, h3, h4⟩ := isMarker_false_iff.mp hmk
    cases m2 with
    | normal =>
      obtain ⟨hs, hy, hsl, hyl, hrun⟩ := h
      have hstep : stepTrimmed s (trim l) =
          if trim l = [] then { s with formattedLines := s.formattedLines ++ [[]] }
          else normalLine s (trim l) := by
        by_cases hnil : trim l = []
        · rw [hnil, stepTrimmed_nil]; simp [hs, hy]
        · rw [stepTrimmed_other s hnil hmk]; simp [hs, hy, hnil]
      have hfr := normalLine_frame s (trim l)
      refine ⟨?_, ?_, ?_, ?_, second_pass_normal s hclean.1 hs hy h2 h4 hrun⟩
      · rw [step, hstep]; split_ifs
        · exact hs
        · rw [hfr.1]; exact hs
      · rw [step, hstep]; split_ifs
        · exact hy
        · rw [hfr.2.1]; exact hy
      · rw [step, hstep]; split_ifs
        · exact hsl
        · rw [hfr.2.2.2.2.1]; exact hsl
      · rw [step, hstep]; split_ifs
        · exact hyl
        · rw [hfr.2.2.2.2.2]; exact hyl
    | script =>
      obtain ⟨hs, hy, hyl, hbuf, hrun⟩ := h
      have hstep : step s l = { s with scriptLines := s.scriptLines ++ [trim l] } := by
        rw [step]
        by_cases hnil : trim l = []
        · rw [hnil, stepTrimmed_nil, if_pos hs]
        · rw [stepTrimmed_other s hnil hmk, if_pos hs]
      rw [hstep]
      exact ⟨hs, hy, hyl, goodBuf_snoc hbuf hclean hmk, hrun⟩
    | style =>
      obtain ⟨hs, hy, hsl, hbuf, hrun⟩ := h
      have hstep : step s l = { s with styleLines := s.styleLines ++ [trim l] } := by
        rw [step]
        by_cases hnil : trim l = []
        · rw [hnil, stepTrimmed_nil, if_neg (by simp [hs]), if_pos hy]
        · rw [stepTrimmed_other s hnil hmk, if_neg (by simp [hs]), if_pos hy]
      rw [hstep]
      exact ⟨hs, hy, hsl, goodBuf_snoc hbuf hclean hmk, hrun⟩
  · rcases nextMode_not_marker hm (by simpa using hmk) with
      ⟨rfl, ht, rfl⟩ | ⟨rfl, ht, rfl⟩ | ⟨rfl, ht, rfl⟩ | ⟨rfl, ht, rfl⟩
    · obtain ⟨hs, hy, hsl, hyl, hrun⟩ := h
      have h2 := second_pass_normal s hclean.1 hs hy
        (by rw [ht]; decide) (by rw [ht]; decide) hrun
      rw [step]
      rw [ht] at h2 ⊢
      rw [stepTrimmed_scriptOpen] at h2 ⊢
      exact ⟨rfl, hy, hyl, fun x hx => by simp at hx, h2⟩
    · obtain ⟨hs, hy, hsl, hyl, hrun⟩ := h
      have h2 := second_pass_normal s hclean.1 hs hy
        (by rw [ht]; decide) (by rw [ht]; decide) hrun
      rw [step]
      rw [ht] at h2 ⊢
      rw [stepTrimmed_styleOpen] at h2 ⊢
      exact ⟨hs, rfl, hsl, fun x hx => by simp at hx, h2⟩
    · obtain ⟨hs, hy, hyl, hbuf, hrun⟩ := h
      have h2 := second_pass_scriptClose s hs hbuf hrun
      rw [step, ht]
      rw [stepTrimmed_scriptClose] at h2 ⊢
      exact ⟨rfl, hy, rfl, hyl, h2⟩
    · obtain ⟨hs, hy, hsl, hbuf, hrun⟩ := h
      have h2 := second_pass_styleClose s hs hy hbuf hrun
      rw [step, ht]
      rw [stepTrimmed_styleClose] at h2 ⊢
      exact ⟨hs, rfl, hsl, rfl, h2⟩

theorem sim_run : ∀ (L : List Str) (m : Mode) (s : FmtState), Sim m s →
    (∀ l ∈ L, '\n' ∉ l) → wellFormedBlocks m L = true → Sim .normal (run s L)
  | [], m, s, h, _, hw => by
    have : m = .normal := by simpa [wellFormedBlocks] using hw
    subst this; exact h
  | l :: ls, m, s, h, hnl, hw => by
    rw [wellFormedBlocks] at hw
    cases hm : nextMode m (trim l) with
    | none => rw [hm] at hw; cases hw
    | some m2 =>
      rw [hm] at hw
      exact sim_run ls m2 (step s l) (sim_step (hnl l (List.mem_cons_self _ _)) h hm)
        (fun x hx => hnl x (List.mem_cons_of_mem _ hx)) hw

theorem sim_initState : Sim .normal initState := ⟨rfl, rfl, rfl, rfl, rfl⟩

/-- On a text with well-formed blocks a second pass over the emitted lines
emits the same lines. -/
theorem second_pass_lines (text : Str) (h : wellFormedBlocks .normal (splitNL text) = true) :
    (run initState (run initState (splitNL text)).formattedLines).formattedLines =
      (run initState (splitNL text)).formattedLines := by
  have := sim_run (splitNL text) .normal initState sim_initState (splitNL_no_nl text) h
  rw [this.2.2.2.2]

/-! ## Lines that reach the classification of lines 214-269 -/

theorem run_eq_foldl (L : List Str) (st : FmtState) :
    run st L = (L.map trim).foldl stepTrimmed st := by
  induction L generalizing st with
  | nil => rfl
  | cons l ls ih => rw [run_cons, ih, step]; rfl

theorem ne_nil_of_startsWith_lt {t : Str} (h : startsWith t ['<'] = true) : t ≠ [] := by
  rintro rfl; cases h

theorem isJavaScriptLine_of_startsWith_lt {t : Str} (h : startsWith t ['<'] = true) :
    isJavaScriptLine t = false := by
  cases t with
  | nil => cases h
  | cons c r =>
    have hc : c = '<' := by simpa [startsWith] using h
    subst hc; exact isJavaScriptLine_not_lt r

/-- Without the statement branch, `dispatch` is the chain of lines 245-269. -/
theorem dispatch_eq_markupBranches (st : FmtState) (t : Str)
    (h : (isJavaScriptLine t && !st.inJSXContext) = false) :
    dispatch st t = markupBranches st t := by
  unfold dispatch markupBranches
  rw [h]
  rfl

theorem markJSX_of_flag (st : FmtState) (t : Str) (h : st.inJSXContext = true) :
    markJSX st t = st := by
  unfold markJSX
  split_ifs
  · rw [← h]
  · rfl

theorem markJSX_frame (st : FmtState) (t : Str) :
    (markJSX st t).indentLevel = st.indentLevel ∧
    (markJSX st t).formattedLines = st.formattedLines :=
  ⟨rfl, rfl⟩

/-- The flag is only ever set. -/
theorem stepTrimmed_flag (st : FmtState) (t : Str) (h : st.inJSXContext = true) :
    (stepTrimmed st t).inJSXContext = true := by
  by_cases hnil : t = []
  · subst hnil; rw [stepTrimmed_nil]; split_ifs <;> exact h
  by_cases hm : isMarker t = false
  · rw [stepTrimmed_other st hnil hm]
    split_ifs
    · exact h
    · exact h
    · rw [normalLine, (dispatch_frame _ _).2.2.2.2.2.2, markJSX_of_flag st t h]; exact h
  · rcases isMarker_cases (by simpa using hm) with rfl | rfl | rfl | rfl
    · rw [stepTrimmed_scriptOpen]; exact h
    · rw [stepTrimmed_scriptClose]; exact h
    · rw [stepTrimmed_styleOpen]; exact h
    · rw [stepTrimmed_styleClose]; exact h

theorem run_flag (L : List Str) (st : FmtState) (h : st.inJSXContext = true) :
    (run st L).inJSXContext = true := by
  induction L generalizing st with
  | nil => exact h
  | cons l ls ih => exact ih _ (stepTrimmed_flag st (trim l) h)

/-- With the flag set, a line that reaches the classification is handled by
the branches after the statement branch. -/
theorem stepTrimmed_of_flag (st : FmtState) {t : Str} (h : st.inJSXContext = true)
    (hs : st.inScriptBlock = false) (hy : st.inStyleBlock = false)
    (hne : t ≠ []) (hm : isMarker t = false) :
    stepTrimmed st t = markupBranches st t := by
  rw [stepTrimmed_other st hne hm, if_neg (by simp [hs]), if_neg (by simp [hy]), normalLine,
    markJSX_of_flag st t h, dispatch_eq_markupBranches st t (by simp [h])]

/-- A tag line that reaches the classification sets the flag. -/
theorem stepTrimmed_sets_flag (st : FmtState) {t : Str}
    (hs : st.inScriptBlock = false) (hy : st.inStyleBlock = false)
    (hm : isMarker t = false) (hj : isJSXLine t = true) :
    (stepTrimmed st t).inJSXContext = true := by
  have hne : t ≠ [] := by
    rintro rfl; exact absurd hj (by decide)
  rw [stepTrimmed_other st hne hm, if_neg (by simp [hs]), if_neg (by simp [hy]), normalLine,
    (dispatch_frame _ _).2.2.2.2.2.2]
  simp [markJSX, hj]

/-! ## Style rules -/

theorem includes_of_startsWith {t : Str} {c : Char} (h : startsWith t [c] = true) :
    includes t [c] = true := by
  cases t with
  | nil => cases h
  | cons d r => rw [includes, h]; rfl

theorem cssKind_opener {t : Str} (h : cssKind t = .opener) :
    includes t ['{'] = true ∧ includes t ['}'] = false := by
  unfold cssKind at h
  split_ifs at h with h1
  simpa using h1

theorem cssKind_closer {t : Str} (h : cssKind t = .closer) :
    startsWith t ['}'] = true ∧ includes t ['{'] = false := by
  unfold cssKind at h
  split_ifs at h with h1 h2
  simpa using h2

theorem cssKind_neutral {t : Str} (h : cssKind t = .neutral) :
    startsWith t ['}'] = false ∧ (includes t ['{'] = false ∨ includes t ['}'] = true) := by
  unfold cssKind at h
  split_ifs at h with h1 h2 h3
  simp only [Bool.or_eq_true, Bool.and_eq_true, Bool.not_eq_true'] at h3
  rcases h3 with ⟨h4, h5⟩ | ⟨⟨h4, h5⟩, h6⟩
  · refine ⟨?_, Or.inl h4⟩
    by_contra hcon
    have := includes_of_startsWith (by simpa using hcon : startsWith t ['}'] = true)
    rw [h5] at this; cases this
  · exact ⟨h6, Or.inr h5⟩

theorem css_opener_levels {t : Str} (h : cssKind t = .opener) (d : Int) :
    cssDedentBefore d t = d ∧ cssIndentAfter d t = d + 1 := by
  obtain ⟨h1, h2⟩ := cssKind_opener h
  have h3 : startsWith t ['}'] = false := by
    by_contra hcon
    have := includes_of_startsWith (by simpa using hcon : startsWith t ['}'] = true)
    rw [h2] at this; cases this
  simp [cssIndentAfter, cssDedentBefore, h1, h2, h3]

theorem css_closer_levels {t : Str} (h : cssKind t = .closer) (d : Nat) :
    cssDedentBefore ((d : Int) + 1) t = d ∧ cssIndentAfter ((d : Int) + 1) t = d := by
  obtain ⟨h1, h2⟩ := cssKind_closer h
  simp [cssIndentAfter, cssDedentBefore, h1, h2]

theorem css_neutral_levels {t : Str} (h : cssKind t = .neutral) (d : Int) :
    cssDedentBefore d t = d ∧ cssIndentAfter d t = d := by
  obtain ⟨h1, h2⟩ := cssKind_neutral h
  rcases h2 with h2 | h2 <;> simp [cssIndentAfter, cssDedentBefore, h1, h2]

/-- Properly nested style lines read by the loop of `formatCSS` from a depth:
the lines expected, and level 0 at the end. -/
theorem css_nested_run (b : Nat) : ∀ (L : List Str) (st : SubState) (d : Nat),
    st.indentLevel = d → cssNested d (L.map trim) = true →
    (L.foldl (cssStep b) st).formatted = st.formatted ++ cssExpected b d (L.map trim) ∧
    (L.foldl (cssStep b) st).indentLevel = 0
  | [], st, d, hd, h => by
    have : d = 0 := by simpa [cssNested] using h
    subst this
    simp [cssExpected, hd]
  | l :: r, st, d, hd, h => by
    rw [List.map_cons] at h
    unfold cssNested at h
    rw [List.foldl_cons, List.map_cons]
    unfold cssExpected
    by_cases hb : (trim l).isEmpty = true
    · rw [if_pos hb] at h
      have hstep : cssStep b st l = { st with formatted := st.formatted ++ [[]] } := by
        simp [cssStep, hb]
      have ih := css_nested_run b r (cssStep b st l) d (by rw [hstep]; exact hd) h
      rw [ih.1, ih.2, if_pos hb, hstep]
      simp
    · rw [if_neg hb] at h
      rw [if_neg hb]
      have hstep : cssStep b st l =
          { formatted := st.formatted ++
              [tabs (b + cssDedentBefore st.indentLevel (trim l)) ++ trim l]
            indentLevel := cssIndentAfter st.indentLevel (trim l) } := by
        simp [cssStep, hb]
      obtain ⟨kind, hk⟩ : ∃ kind, cssKind (trim l) = kind := ⟨_, rfl⟩
      rw [hk] at h ⊢
      cases kind with
      | opener =>
        simp only at h ⊢
        obtain ⟨e1, e2⟩ := css_opener_levels hk (d : Int)
        have ih := css_nested_run b r (cssStep b st l) (d + 1)
          (by rw [hstep, hd]; simpa using e2) h
        rw [ih.1, ih.2, hstep, hd, e1]
        have : ((b : Int) + (d : Int)) = ((b + d : Nat) : Int) := by push_cast; rfl
        rw [this, tabs_natCast]
        try simp only [List.append_assoc, List.singleton_append, and_self]
      | closer =>
        cases d with
        | zero => simp at h
        | succ d2 =>
          simp only at h ⊢
          obtain ⟨e1, e2⟩ := css_closer_levels hk d2
          have hd2 : st.indentLevel = (d2 : Int) + 1 := by rw [hd]; push_cast; rfl
          have ih := css_nested_run b r (cssStep b st l) d2
            (by rw [hstep, hd2]; exact e2) h
          rw [ih.1, ih.2, hstep, hd2, e1]
          have : ((b : Int) + (d2 : Int)) = ((b + d2 : Nat) : Int) := by push_cast; rfl
          rw [this, tabs_natCast]
          simp only [List.append_assoc, List.singleton_append, Nat.add_one_sub_one, and_self]
      | neutral =>
        simp only at h ⊢
        obtain ⟨e1, e2⟩ := css_neutral_levels hk (d : Int)
        have ih := css_nested_run b r (cssStep b st l) d
          (by rw [hstep, hd]; exact e2) h
        rw [ih.1, ih.2, hstep, hd, e1]
        have : ((b : Int) + (d : Int)) = ((b + d : Nat) : Int) := by push_cast; rfl
        rw [this, tabs_natCast]
        try simp only [List.append_assoc, List.singleton_append, and_self]
      | other => simp at h

/-! ## Texts without block markers -/

/-- Outside blocks, lines that are no markers are emitted one for one: an
empty line for a blank line, otherwise tabs and the trimmed line. -/
theorem run_unmarked : ∀ (L : List Str) (st : FmtState),
    st.inScriptBlock = false → st.inStyleBlock = false →
    (∀ l ∈ L, isMarker (trim l) = false) →
    ∃ outs, (run st L).formattedLines = st.formattedLines ++ outs ∧
      List.Forall₂ (fun l o => (trim l = [] → o = []) ∧
        (trim l ≠ [] → ∃ k : Nat, o = List.replicate k '\t' ++ trim l)) L outs
  | [], st, _, _, _ => ⟨[], by simp [run_nil], List.Forall₂.nil⟩
  | l :: r, st, hs, hy, hL => by
    have hl := hL l (List.mem_cons_self _ _)
    have hr : ∀ x ∈ r, isMarker (trim x) = false := fun x hx => hL x (List.mem_cons_of_mem _ hx)
    by_cases hnil : trim l = []
    · have hstep : step st l = { st with formattedLines := st.formattedLines ++ [[]] } := by
        rw [step, hnil, stepTrimmed_nil]; simp [hs, hy]
      obtain ⟨outs, ho, hf⟩ := run_unmarked r (step st l) (by rw [hstep]; exact hs)
        (by rw [hstep]; exact hy) hr
      refine ⟨[] :: outs, ?_, List.Forall₂.cons ⟨fun _ => rfl, fun h => absurd hnil h⟩ hf⟩
      rw [run_cons, ho, hstep]; simp
    · have hstep : step st l = normalLine st (trim l) := by
        rw [step, stepTrimmed_other st hnil hl]; simp [hs, hy]
      obtain ⟨k, hk⟩ := normalLine_formattedLines st (trim l)
      have hfr := normalLine_frame st (trim l)
      obtain ⟨outs, ho, hf⟩ := run_unmarked r (step st l) (by rw [hstep, hfr.1]; exact hs)
        (by rw [hstep, hfr.2.1]; exact hy) hr
      refine ⟨(tabs k ++ trim l) :: outs, ?_,
        List.Forall₂.cons ⟨fun h => absurd h hnil, fun _ => ⟨k.toNat, rfl⟩⟩ hf⟩
      rw [run_cons, ho, hstep, hk]; simp

/-! ## The tag-stack scanner -/

theorem spliceLast_append (name : Str) (b : List Str) : ∀ (k : Nat) (a : List Str),
    k ≤ a.length → spliceLast (a ++ b) name k = spliceLast a name k ++ b
  | 0, _, _ => rfl
  | k + 1, a, hk => by
    have hlt : k < a.length := hk
    rw [spliceLast, spliceLast, List.getElem?_append_left hlt]
    split_ifs
    · exact List.eraseIdx_append_of_lt_length hlt b
    · exact spliceLast_append name b k a (Nat.le_of_lt hlt)

/-- Scanning from the end and splicing out the first hit removes the last
occurrence of the name, and nothing when the name does not occur. -/
theorem spliceLast_eq_spec (name : Str) (l : List Str) :
    spliceLast l name l.length = (l.reverse.erase name).reverse := by
  induction l using List.reverseRecOn with
  | nil => rfl
  | append_singleton a x ih =>
    rw [List.length_append, List.length_singleton, spliceLast, List.getElem?_concat_length,
      List.reverse_append, List.reverse_singleton, List.singleton_append, List.erase_cons]
    by_cases hx : x = name
    · subst hx
      rw [if_pos rfl, if_pos (by simp), List.reverse_reverse]
      rw [List.eraseIdx_append_of_length_le (Nat.le_refl _)]
      simp
    · rw [if_neg (by simpa using hx), if_neg (by simpa using hx),
        spliceLast_append name [x] a.length a (Nat.le_refl _), ih, List.reverse_cons]

theorem tagStep_eq_spec (l : List Str) (m : TagMatch) : tagStep l m = tagStepSpec l m := by
  unfold tagStep tagStepSpec
  by_cases h1 : m.slash = ['/']
  · rw [if_pos h1, if_pos h1]; exact spliceLast_eq_spec m.name l
  · rw [if_neg h1, if_neg h1]
    cases endsWith m.whole "/>".toList <;> rfl

theorem foldl_tagStep_eq_spec (toks : List TagMatch) (l : List Str) :
    toks.foldl tagStep l = toks.foldl tagStepSpec l := by
  induction toks generalizing l with
  | nil => rfl
  | cons m r ih => rw [List.foldl_cons, List.foldl_cons, tagStep_eq_spec, ih]

/-- What a match of the tag regex looks like. -/
theorem tagMatchAt_shape {s : Str} {m : TagMatch} (h : tagMatchAt s = some m) :
    ∃ attrs : Str, m.whole = '<' :: (m.slash ++ m.name ++ attrs ++ ['>']) ∧
      (m.slash = [] ∨ m.slash = ['/']) ∧ m.name ≠ [] ∧
      (∀ c ∈ m.name, isTagNameChar c = true) ∧ '>' ∉ attrs := by
  unfold tagMatchAt at h
  split at h
  · rename_i r
    dsimp only at h
    split_ifs at h with h1 h2 h3 h4 h5
    all_goals
      simp only [Option.some.injEq] at h
      subst h
      refine ⟨_, rfl, ?_, ?_, fun c hc => List.mem_takeWhile_imp hc, ?_⟩
    · exact Or.inr rfl
    · intro hn; dsimp only at hn; rw [hn] at h2; exact h2 rfl
    · intro hmem; simpa using List.mem_takeWhile_imp hmem
    · exact Or.inl rfl
    · intro hn; dsimp only at hn; rw [hn] at h4; exact h4 rfl
    · intro hmem; simpa using List.mem_takeWhile_imp hmem
  · cases h

theorem tagMatchesFrom_shape : ∀ (s : Str) (skip : Nat) (m : TagMatch),
    m ∈ tagMatchesFrom skip s →
    ∃ attrs : Str, m.whole = '<' :: (m.slash ++ m.name ++ attrs ++ ['>']) ∧
      (m.slash = [] ∨ m.slash = ['/']) ∧ m.name ≠ [] ∧
      (∀ c ∈ m.name, isTagNameChar c = true) ∧ '>' ∉ attrs
  | [], skip, m, h => by cases skip <;> simp [tagMatchesFrom] at h
  | c :: r, skip + 1, m, h => by
    rw [tagMatchesFrom] at h
    exact tagMatchesFrom_shape r skip m h
  | c :: r, 0, m, h => by
    rw [tagMatchesFrom] at h
    cases hm : tagMatchAt (c :: r) with
    | none => rw [hm] at h; exact tagMatchesFrom_shape r 0 m h
    | some m2 =>
      rw [hm] at h
      rcases List.mem_cons.mp h with rfl | h
      · exact tagMatchAt_shape hm
      · exact tagMatchesFrom_shape r _ m h

/-- On tokens that obey the stack discipline the scanner's list is the
stack, and its length is the number of pushes minus the number of pops. -/
theorem strictStack_fold : ∀ (toks : List TagMatch) (s stk : List Str),
    strictStack s toks = some stk →
    toks.foldl tagStep s = stk ∧
      stk.length + closeTokenCount toks = s.length + pushCount toks
  | [], s, stk, h => by
    simp only [strictStack, Option.some.injEq] at h
    subst h
    simp [closeTokenCount, pushCount]
  | m :: r, s, stk, h => by
    rw [strictStack] at h
    rw [List.foldl_cons]
    by_cases h1 : m.slash = ['/']
    · rw [if_pos h1] at h
      by_cases h2 : s.getLast? = some m.name
      · rw [if_pos h2] at h
        obtain ⟨ys, hys⟩ := List.getLast?_eq_some_iff.mp h2
        have hstep : tagStep s m = s.dropLast := by
          rw [tagStep_eq_spec, tagStepSpec, if_pos h1, hys]
          simp
        obtain ⟨ih1, ih2⟩ := strictStack_fold r s.dropLast stk h
        rw [hstep]
        refine ⟨ih1, ?_⟩
        have hc : closeTokenCount (m :: r) = closeTokenCount r + 1 := by
          simp [closeTokenCount, h1]
        have hp : pushCount (m :: r) = pushCount r := by
          simp [pushCount, h1]
        have hl : s.length = s.dropLast.length + 1 := by rw [hys]; simp
        omega
      · rw [if_neg h2] at h; cases h
    · rw [if_neg h1] at h
      have hc : closeTokenCount (m :: r) = closeTokenCount r := by
        simp [closeTokenCount, h1]
      by_cases h2 : endsWith m.whole "/>".toList = true
      · rw [if_pos h2] at h
        have hstep : tagStep s m = s := by
          rw [tagStep_eq_spec, tagStepSpec, if_neg h1, if_pos h2]
        have hp : pushCount (m :: r) = pushCount r := by
          unfold pushCount
          rw [List.filter_cons_of_neg (by rw [h2]; simp)]
        obtain ⟨ih1, ih2⟩ := strictStack_fold r s stk h
        rw [hstep]
        exact ⟨ih1, by omega⟩
      · rw [if_neg h2] at h
        have hstep : tagStep s m = s ++ [m.name] := by
          rw [tagStep_eq_spec, tagStepSpec, if_neg h1, if_neg h2]
        have hp : pushCount (m :: r) = pushCount r + 1 := by
          unfold pushCount
          rw [List.filter_cons_of_pos (by
            have : endsWith m.whole "/>".toList = false := by simpa using h2
            rw [this]; simpa using h1)]
          rfl
        obtain ⟨ih1, ih2⟩ := strictStack_fold r (s ++ [m.name]) stk h
        rw [hstep]
        refine ⟨ih1, ?_⟩
        rw [List.length_append, List.length_singleton] at ih2
        omega

/-! ## Script content before the first bracket -/

theorem dedentBefore_zero (t : Str) : dedentBefore 0 t = 0 := by
  unfold dedentBefore; split_ifs <;> rfl

theorem jsIndentAfter_zero_of_bracketFree {t : Str} (h : bracketFree t = true) :
    jsIndentAfter 0 t = 0 := by
  simp only [bracketFree, Bool.and_eq_true, List.isEmpty_iff] at h
  have h1 : openCount t = 0 := by simp [openCount, h.1]
  have h2 : closeCount t = 0 := by simp [closeCount, h.2]
  unfold jsIndentAfter jsNetChange
  rw [dedentBefore_zero, h1, h2]
  split_ifs <;> rfl

/-- Every non-blank script line is emitted, trimmed, behind at least the base
number of tabs. -/
theorem scriptTrace_forall2 (b : Nat) : ∀ (S : List Str) (lvl : Int), 0 ≤ lvl →
    List.Forall₂ (fun t o => ∃ d : Nat, o = List.replicate (b + d) '\t' ++ t)
      (S.filter (fun l => !l.isEmpty))
      ((scriptTrace lvl S).map (fun p => tabs ((b : Int) + p.1) ++ p.2))
  | [], _, _ => by simp [scriptTrace]
  | t :: r, lvl, h => by
    rw [scriptTrace]
    by_cases hb : t.isEmpty = true
    · rw [if_pos hb, List.filter_cons_of_neg (by simp [hb])]
      exact scriptTrace_forall2 b r lvl h
    · rw [if_neg hb, List.filter_cons_of_pos (by simpa using hb), List.map_cons]
      refine List.Forall₂.cons ⟨(dedentBefore lvl t).toNat, ?_⟩
        (scriptTrace_forall2 b r _ (jsIndentAfter_nonneg lvl t))
      have h0 := dedentBefore_nonneg h t
      have : ((b : Int) + dedentBefore lvl t) = ((b + (dedentBefore lvl t).toNat : Nat) : Int) := by
        push_cast; rw [Int.toNat_of_nonneg h0]
      dsimp only
      rw [this, tabs_natCast]

/-- From level 0, the script lines up to and including the first one that
holds a bracket are emitted behind exactly the base number of tabs. -/
theorem scriptTrace_flatPrefix (b : Nat) : ∀ (S : List Str),
    ∃ tail, (scriptTrace 0 S).map (fun p => tabs ((b : Int) + p.1) ++ p.2) =
      (flatPrefix (S.filter (fun l => !l.isEmpty))).map
        (fun t => List.replicate b '\t' ++ t) ++ tail
  | [] => ⟨[], by simp [scriptTrace, flatPrefix]⟩
  | t :: r => by
    rw [scriptTrace]
    by_cases hb : t.isEmpty = true
    · rw [if_pos hb, List.filter_cons_of_neg (by simp [hb])]
      exact scriptTrace_flatPrefix b r
    · rw [if_neg hb, List.filter_cons_of_pos (by simpa using hb), List.map_cons, flatPrefix]
      have hhead : tabs ((b : Int) + dedentBefore 0 t) ++ t = List.replicate b '\t' ++ t := by
        rw [dedentBefore_zero, Int.add_zero, tabs_natCast]
      dsimp only
      rw [hhead]
      by_cases hf : bracketFree t = true
      · obtain ⟨tail, ht⟩ := scriptTrace_flatPrefix b r
        rw [if_pos hf, jsIndentAfter_zero_of_bracketFree hf, ht]
        exact ⟨tail, by simp⟩
      · rw [if_neg hf]
        exact ⟨(scriptTrace (jsIndentAfter 0 t) r).map
          (fun p : Int × Str => tabs ((b : Int) + p.1) ++ p.2), by
            simp only [List.map_cons, List.map_nil, List.singleton_append]⟩

/-! ## Claims -/

/-- C1: the formatter is claimed to keep every non-blank line of its input.
On the text `<script>` / `foo`, whose script block is never closed, the code
returns `<script>` alone: the buffered line `foo` is never flushed, so the
content lines of the output differ from those of the input. -/
theorem unclosed_script_drops_content :
    formatFubeltDocument "<script>\nfoo".toList = "<script>".toList ∧
    contentLines "<script>\nfoo".toList = ["<script>".toList, "foo".toList] ∧
    contentLines (formatFubeltDocument "<script>\nfoo".toList) = ["<script>".toList] := by
  decide

/-- C2: the script sub-formatter is claimed to update the indent like the
statement branch.  On the line `foo({` the statement branch raises the level
by 1 and `formatJavaScript` by 2, so the next script line sits two tabs deeper
than `foo({` while the next statement line sits one tab deeper. -/
theorem script_call_object_raises_by_two :
    reCallObject "foo(\x7b".toList = true ∧
    stmtIndentAfter 0 "foo(\x7b".toList = 1 ∧
    jsIndentAfter 0 "foo(\x7b".toList = 2 ∧
    formatJavaScript "foo(\x7b\na".toList 0 = "foo(\x7b\n\t\ta".toList ∧
    formatFubeltDocument "foo(\x7b\na".toList = "foo(\x7b\n\ta".toList := by
  decide

/-- C5: in every state reached by the main loop, by the loop of
`formatJavaScript` and by the loop of `formatCSS`, whatever lines were read,
the indent level is non-negative; in the main loop so are the two entry
snapshots, from which the level is restored at a closing marker. -/
theorem indent_level_never_negative :
    (∀ lines : List Str,
      0 ≤ (run initState lines).indentLevel ∧
      0 ≤ (run initState lines).scriptStartIndent ∧
      0 ≤ (run initState lines).styleStartIndent) ∧
    (∀ (base : Int) (lines : List Str),
      0 ≤ (lines.foldl (jsStep base) ⟨[], 0⟩).indentLevel) ∧
    (∀ (base : Int) (lines : List Str),
      0 ≤ (lines.foldl (cssStep base) ⟨[], 0⟩).indentLevel) :=
  ⟨fun lines => run_levels lines initState initState_levels,
   fun base lines => foldl_jsStep_nonneg base lines _ (le_refl 0),
   fun base lines => foldl_cssStep_nonneg base lines _ (le_refl 0)⟩

/-- C8, as stated, fails: the script line `},` read at level 1 leaves level 0,
and so does the statement line `})},` in the statement branch, because a line
that starts with a closing bracket is dedented before it is emitted. -/
theorem closer_comma_line_can_lower_level :
    endsWith "\x7d,".toList "\x7d,".toList = true ∧
    (jsStep 0 ⟨[], 1⟩ "\x7d,".toList).indentLevel = 0 ∧
    endsWith "\x7d)\x7d,".toList "\x7d,".toList = true ∧
    isJavaScriptLine "\x7d)\x7d,".toList = true ∧
    (step { initState with indentLevel := 1 } "\x7d)\x7d,".toList).indentLevel = 0 := by
  decide

/-- C8, amended: a line ending in `},` leaves the indent level at the level
at which the line itself was emitted (its net bracket change is forced to 0):
in `formatJavaScript` for every such line, and in the statement branch for
every such statement line read outside blocks before any tag line; when the
line does not start with a closing bracket that is the level before the line. -/
theorem closer_comma_line_keeps_emit_level (base : Int) (sub : SubState) (st : FmtState)
    (line : Str) (hend : endsWith (trim line) "\x7d,".toList = true)
    (hsub : 0 ≤ sub.indentLevel) :
    (jsStep base sub line).indentLevel = dedentBefore sub.indentLevel (trim line) ∧
    (startsWithCloser (trim line) = false →
      (jsStep base sub line).indentLevel = sub.indentLevel) ∧
    (0 ≤ st.indentLevel → st.inScriptBlock = false → st.inStyleBlock = false →
      st.inJSXContext = false → isJavaScriptLine (trim line) = true →
      (step st line).indentLevel = dedentBefore st.indentLevel (trim line) ∧
      (startsWithCloser (trim line) = false →
        (step st line).indentLevel = st.indentLevel)) := by
  have hne : (trim line).isEmpty = false := by
    cases h : trim line with
    | nil => rw [h] at hend; exact absurd hend (by decide)
    | cons c r => rfl
  have hcc : endsWithCloserComma (trim line) = true := by
    simp only [endsWithCloserComma, hend, Bool.true_or]
  have h1 : (jsStep base sub line).indentLevel = dedentBefore sub.indentLevel (trim line) := by
    have := dedentBefore_nonneg hsub (trim line)
    simp [jsStep, hne, jsIndentAfter, jsNetChange, hcc, this]
  refine ⟨h1, fun hc => by rw [h1, dedentBefore_of_not_closer hc], ?_⟩
  intro hlvl hs hy hj ht
  have h2 : (step st line).indentLevel = dedentBefore st.indentLevel (trim line) := by
    have := dedentBefore_nonneg hlvl (trim line)
    simp [step, stepTrimmed_statement st _ hs hy hj ht, statementBranch, stmtIndentAfter,
      stmtNetChange, hcc, this]
  exact ⟨h2, fun hc => by rw [h2, dedentBefore_of_not_closer hc]⟩

/-- Witness for C8 amended: the script lines `},` and `b: 1 },`, which are no
statement lines, read at level 1, and the statement line `a = f(b, {c},`
read at level 3 as script line and as statement line. -/
theorem closer_comma_line_keeps_emit_level_witness :
    (jsStep 0 ⟨[], 1⟩ "\x7d,".toList).indentLevel = dedentBefore 1 (trim "\x7d,".toList) ∧
    (jsStep 0 ⟨[], 1⟩ "b: 1 \x7d,".toList).indentLevel = 1 ∧
    (jsStep 1 ⟨[], 3⟩ "a = f(b, \x7bc\x7d,".toList).indentLevel = 3 ∧
    (step { initState with indentLevel := 3 } "a = f(b, \x7bc\x7d,".toList).indentLevel = 3 :=
  ⟨(closer_comma_line_keeps_emit_level 0 ⟨[], 1⟩ initState "\x7d,".toList
      (by decide) (by decide)).1,
   (closer_comma_line_keeps_emit_level 0 ⟨[], 1⟩ initState "b: 1 \x7d,".toList
      (by decide) (by decide)).2.1 (by decide),
   (closer_comma_line_keeps_emit_level 1 ⟨[], 3⟩ { initState with indentLevel := 3 }
      "a = f(b, \x7bc\x7d,".toList (by decide) (by decide)).2.1 (by decide),
   ((closer_comma_line_keeps_emit_level 1 ⟨[], 3⟩ { initState with indentLevel := 3 }
      "a = f(b, \x7bc\x7d,".toList (by decide) (by decide)).2.2
        (by decide) rfl rfl rfl (by decide)).2 (by decide)⟩

/-- C9: outside blocks and before any tag line, a statement line that matches
the object-literal call pattern `\w+\s*\(\s*\{$` is emitted at the level left
by the dedent-before-emit rule and leaves the indent level exactly 1 above
that level. -/
theorem call_object_statement_raises_by_one (st : FmtState) (line : Str)
    (hlvl : 0 ≤ st.indentLevel)
    (hs : st.inScriptBlock = false) (hy : st.inStyleBlock = false)
    (hj : st.inJSXContext = false) (ht : isJavaScriptLine (trim line) = true)
    (hcall : reCallObject (trim line) = true) :
    (step st line).formattedLines =
      st.formattedLines ++ [tabs (dedentBefore st.indentLevel (trim line)) ++ trim line] ∧
    (step st line).indentLevel = dedentBefore st.indentLevel (trim line) + 1 := by
  have hd := dedentBefore_nonneg hlvl (trim line)
  have hcc : endsWithCloserComma (trim line) = false := by
    unfold reCallObject at hcall
    unfold endsWithCloserComma endsWith
    cases h : (trim line).reverse with
    | nil => rw [h] at hcall; simp at hcall
    | cons c r =>
      rw [h] at hcall
      by_cases hc : c = '{'
      · subst hc; simp [startsWith]
      · exfalso; revert hcall; split <;> simp_all
  constructor
  · simp [step, stepTrimmed_statement st _ hs hy hj ht, statementBranch]
  · simp only [step, stepTrimmed_statement st _ hs hy hj ht, statementBranch, stmtIndentAfter,
      stmtNetChange, hcall, hcc, if_true]
    simp; omega

/-- Witness for C9: the line `foo({` read at level 2. -/
theorem call_object_statement_raises_by_one_witness :
    (step { initState with indentLevel := 2 } "foo(\x7b".toList).indentLevel = 2 + 1 :=
  (call_object_statement_raises_by_one { initState with indentLevel := 2 } "foo(\x7b".toList
    (by decide) rfl rfl rfl (by decide) (by decide)).2

/-- C10: outside blocks and before any tag line, at level n, the statement
line `const x = {` is emitted with n tabs and leaves the level at n + 1; the
statement line `};` is emitted with max(0, n - 1) tabs; and the three-line
text `const x = {` / `a: 1` / `};` is formatted as the claim says. -/
theorem const_brace_statement (st : FmtState) (n : Nat) (hn : st.indentLevel = n)
    (hs : st.inScriptBlock = false) (hy : st.inStyleBlock = false)
    (hj : st.inJSXContext = false) :
    (step st "const x = \x7b".toList).formattedLines =
      st.formattedLines ++ [List.replicate n '\t' ++ "const x = \x7b".toList] ∧
    (step st "const x = \x7b".toList).indentLevel = n + 1 ∧
    (step st "\x7d;".toList).formattedLines =
      st.formattedLines ++ [List.replicate (n - 1) '\t' ++ "\x7d;".toList] ∧
    formatFubeltDocument "const x = \x7b\na: 1\n\x7d;".toList = "const x = \x7b\n\ta: 1\n\x7d;".toList := by
  have t1 : trim "const x = \x7b".toList = "const x = \x7b".toList := by decide
  have t2 : trim "\x7d;".toList = "\x7d;".toList := by decide
  have j1 : isJavaScriptLine "const x = \x7b".toList = true := by decide
  have j2 : isJavaScriptLine "\x7d;".toList = true := by decide
  have d1 : dedentBefore st.indentLevel "const x = \x7b".toList = n := by
    rw [dedentBefore_of_not_closer (by decide), hn]
  have d2 : dedentBefore st.indentLevel "\x7d;".toList = ((n - 1 : Nat) : Int) := by
    have : startsWithCloser "\x7d;".toList = true := by decide
    simp only [dedentBefore, this, if_true, hn]; omega
  have n1 : stmtNetChange "const x = \x7b".toList = 1 := by decide
  refine ⟨?_, ?_, ?_, by decide⟩
  · rw [step, t1, stepTrimmed_statement st _ hs hy hj j1]
    simp only [statementBranch, d1, tabs, Int.toNat_ofNat]
  · rw [step, t1, stepTrimmed_statement st _ hs hy hj j1]
    simp only [statementBranch, stmtIndentAfter, d1, n1]; omega
  · rw [step, t2, stepTrimmed_statement st _ hs hy hj j2]
    simp only [statementBranch, d2, tabs, Int.toNat_ofNat]

/-- Witness for C10: the two lines read at level 2. -/
theorem const_brace_statement_witness :
    (step { initState with indentLevel := 2 } "const x = \x7b".toList).indentLevel = 2 + 1 ∧
    (step { initState with indentLevel := 2 } "\x7d;".toList).formattedLines =
      [] ++ [List.replicate (2 - 1) '\t' ++ "\x7d;".toList] :=
  ⟨(const_brace_statement { initState with indentLevel := 2 } 2 rfl rfl rfl rfl).2.1,
   (const_brace_statement { initState with indentLevel := 2 } 2 rfl rfl rfl rfl).2.2.1⟩

/-- C7: when the input holds a `<script>` line (respectively `<style>`) and,
later, a `</script>` line (respectively `</style>`) with no further opening
marker of the same kind in between, then with n the indent level just before
the opening line: the opening line is emitted with n tabs, the closing line
is the last line emitted when it has been read and carries n tabs, and the
indent level after it is n again, whatever the lines in between. -/
theorem closing_marker_restores_entry_indent (pre mid : List Str) (o c : Str)
    (hoc : (trim o = "<script>".toList ∧ trim c = "</script>".toList) ∨
      (trim o = "<style>".toList ∧ trim c = "</style>".toList))
    (hmid : ∀ l ∈ mid, trim l ≠ trim o) :
    ∃ (n : Nat) (out : List Str),
      (run initState pre).indentLevel = n ∧
      (run initState (pre ++ [o])).formattedLines =
        (run initState pre).formattedLines ++ [List.replicate n '\t' ++ trim o] ∧
      (run initState (pre ++ o :: mid ++ [c])).formattedLines =
        out ++ [List.replicate n '\t' ++ trim c] ∧
      (run initState (pre ++ o :: mid ++ [c])).indentLevel = n := by
  have hlv := (run_levels pre initState initState_levels).1
  obtain ⟨n, hn⟩ := Int.eq_ofNat_of_zero_le hlv
  rcases hoc with ⟨ho, hc⟩ | ⟨ho, hc⟩
  · obtain ⟨h1, ⟨out, h2⟩, h3⟩ :=
      script_block_restores (run initState pre) n hn o c mid ho hc (by rw [← ho]; exact hmid)
    refine ⟨n, out, hn, ?_, ?_, ?_⟩
    · rw [run_snoc, h1, ho]
    · rw [List.append_assoc, run_append, h2, hc]
    · rw [List.append_assoc, run_append, h3]
  · obtain ⟨h1, ⟨out, h2⟩, h3⟩ :=
      style_block_restores (run initState pre) n hn o c mid ho hc (by rw [← ho]; exact hmid)
    refine ⟨n, out, hn, ?_, ?_, ?_⟩
    · rw [run_snoc, h1, ho]
    · rw [List.append_assoc, run_append, h2, hc]
    · rw [List.append_assoc, run_append, h3]

/-- Witness for C7: a script block opened at level 1, inside `<div>`, whose
content holds a stray `</script>` and an unmatched bracket. -/
theorem closing_marker_restores_entry_indent_witness :
    ∃ (n : Nat) (out : List Str),
      (run initState ["<div>".toList]).indentLevel = n ∧
      (run initState (["<div>".toList] ++ [" <script>".toList])).formattedLines =
        (run initState ["<div>".toList]).formattedLines ++
          [List.replicate n '\t' ++ trim " <script>".toList] ∧
      (run initState (["<div>".toList] ++ " <script>".toList ::
          ["f(".toList, "</script>".toList, "x".toList] ++ ["</script> ".toList])).formattedLines =
        out ++ [List.replicate n '\t' ++ trim "</script> ".toList] ∧
      (run initState (["<div>".toList] ++ " <script>".toList ::
          ["f(".toList, "</script>".toList, "x".toList] ++ ["</script> ".toList])).indentLevel = n :=
  closing_marker_restores_entry_indent ["<div>".toList]
    ["f(".toList, "</script>".toList, "x".toList] " <script>".toList "</script> ".toList
    (Or.inl ⟨by decide, by decide⟩) (by decide)

/-- C4: a properly nested sequence of opening-tag lines `<name>` and
closing-tag lines `</name>` (names other than `script` and `style`), read
outside script and style blocks from indent level n: each line is emitted
with n plus its nesting depth tabs (a closing tag at the depth of its
opener), and the indent level after the last line is n again. -/
theorem nested_tags_return_to_start (st : FmtState) (n : Nat) (tags : List TagLine)
    (lines : List Str) (hn : st.indentLevel = n)
    (hs : st.inScriptBlock = false) (hy : st.inStyleBlock = false)
    (hnames : ∀ t ∈ tags, isPlainName t.name = true)
    (hlines : lines.map trim = tags.map TagLine.render)
    (hnest : properlyNested [] tags = true) :
    (run st lines).formattedLines = st.formattedLines ++
      List.zipWith (fun t d => List.replicate (n + d) '\t' ++ t.render) tags
        (nestingDepths 0 tags) ∧
    (run st lines).indentLevel = n :=
  run_nested tags [] st lines n (by simpa using hn) hs hy hnames hlines hnest

/-- Witness for C4: `<a>`, `<b>`, `</b>`, `</a>` read, with stray original
indentation, at level 1. -/
theorem nested_tags_return_to_start_witness :
    (run { initState with indentLevel := 1 }
      ["<a>".toList, "<b>".toList, "    </b>".toList, "  </a>".toList]).formattedLines =
      [] ++ ["\t<a>".toList, "\t\t<b>".toList, "\t\t</b>".toList, "\t</a>".toList] ∧
    (run { initState with indentLevel := 1 }
      ["<a>".toList, "<b>".toList, "    </b>".toList, "  </a>".toList]).indentLevel = 1 :=
  nested_tags_return_to_start { initState with indentLevel := 1 } 1
    [.opening ['a'], .opening ['b'], .closing ['b'], .closing ['a']]
    ["<a>".toList, "<b>".toList, "    </b>".toList, "  </a>".toList]
    rfl rfl rfl (by decide) (by decide) (by decide)

/-- C3, as stated, fails: in the script block `if (x) {` / `y` / `}` entered
at indent 0, the line `y` is emitted with two tabs, not with 0 + 1.  It also
fails, whatever the content, when a marker line lies between the two lines:
after a first `</script>` the line `b` is read outside the block and gets 0
tabs; after a second `<script>` the line `b` gets the tabs of the inner block;
a second `<style>` line gets two tabs; a `</style>` line gets the tabs of the
style snapshot, here 0. -/
theorem script_content_can_be_deeper :
    formatFubeltDocument "<script>\nif (x) \x7b\ny\n\x7d\n</script>".toList =
      "<script>\n\tif (x) \x7b\n\t\ty\n\t\x7d\n</script>".toList ∧
    formatFubeltDocument "<script>\na\n</script>\nb\n</script>".toList =
      "<script>\n\ta\n</script>\nb\n</script>".toList ∧
    formatFubeltDocument "<script>\n<script>\nb\n</script>".toList =
      "<script>\n\t<script>\n\t\tb\n\t</script>".toList ∧
    formatFubeltDocument "<script>\n<style>\n<style>\n</script>".toList =
      "<script>\n\t<style>\n\t\t<style>\n</script>".toList ∧
    formatFubeltDocument "<script>\n</style>\n</script>".toList =
      "<script>\n</style>\n</script>".toList := by
  decide

/-- C3, amended: for a text with a `<script>` line, then lines that are no
block marker, then a `</script>` line, with n the indent level at the opening
line: the opening and closing lines are emitted with n tabs; between them the
non-blank content lines are emitted in order, each trimmed and behind at
least n + 1 tabs; and the content lines up to and including the first one
that holds a bracket are behind exactly n + 1 tabs, whatever the original
indentation. -/
theorem script_block_content_indent (text : Str) (pre body post : List Str) (o c : Str)
    (hsplit : splitNL text = pre ++ (o :: body) ++ (c :: post))
    (ho : trim o = "<script>".toList) (hc : trim c = "</script>".toList)
    (hbody : ∀ l ∈ body, isMarker (trim l) = false) :
    ∃ (n : Nat) (outPre block rest tail : List Str),
      (run initState pre).indentLevel = n ∧
      formatFubeltDocument text =
        joinNL (outPre ++ [List.replicate n '\t' ++ "<script>".toList] ++ block ++
          [List.replicate n '\t' ++ "</script>".toList] ++ rest) ∧
      List.Forall₂ (fun t out => ∃ d : Nat, out = List.replicate (n + 1 + d) '\t' ++ t)
        ((body.map trim).filter (fun l => !l.isEmpty))
        (block.filter (fun l => !l.isEmpty)) ∧
      block.filter (fun l => !l.isEmpty) =
        (flatPrefix ((body.map trim).filter (fun l => !l.isEmpty))).map
          (fun t => List.replicate (n + 1) '\t' ++ t) ++ tail := by
  have hlv := (run_levels pre initState initState_levels).1
  obtain ⟨n, hn⟩ := Int.eq_ofNat_of_zero_le hlv
  have hnl : ∀ l ∈ body, '\n' ∉ l := fun l hl =>
    splitNL_no_nl text l (by rw [hsplit]; simp [hl])
  have hclean : ∀ x ∈ body.map trim, CleanLine x := by
    intro x hx
    obtain ⟨l, hl, rfl⟩ := List.mem_map.mp hx
    exact cleanLine_trim (hnl l hl)
  obtain ⟨rest, hrest⟩ := run_formattedLines post (run (run initState pre) ((o :: body) ++ [c]))
  have hkept := kept_script_filter (((n + 1 : Nat) : Int)) hclean
  obtain ⟨tail, htail⟩ := scriptTrace_flatPrefix (n + 1) (body.map trim)
  have hcast : ((n : Int) + 1) = ((n + 1 : Nat) : Int) := by push_cast; rfl
  refine ⟨n, (run initState pre).formattedLines,
    keptLines (formatJavaScript (joinNL (body.map trim)) ((n : Int) + 1)), rest, tail,
    hn, ?_, ?_, ?_⟩
  · have hs2 : splitNL text = pre ++ (((o :: body) ++ [c]) ++ post) := by
      rw [hsplit]; simp
    rw [formatFubeltDocument, hs2, run_append, run_append, hrest,
      script_block_lines _ o c body ho hc hbody, hn, tabs_natCast]
  · rw [hcast, hkept]
    exact scriptTrace_forall2 (n + 1) (body.map trim) 0 (le_refl 0)
  · rw [hcast, hkept, htail]

/-- Witness for C3 amended: the block `x = 1` / `if (x) {` / `y` / `}` inside
`<div>`, with stray original indentation and a blank line. -/
theorem script_block_content_indent_witness :
    ∃ (n : Nat) (outPre block rest tail : List Str),
      (run initState ["<div>".toList]).indentLevel = n ∧
      formatFubeltDocument
          "<div>\n<script>\n x = 1\n     if (x) \x7b\n\ny\n\x7d\n</script>\n</div>".toList =
        joinNL (outPre ++ [List.replicate n '\t' ++ "<script>".toList] ++ block ++
          [List.replicate n '\t' ++ "</script>".toList] ++ rest) ∧
      List.Forall₂ (fun t out => ∃ d : Nat, out = List.replicate (n + 1 + d) '\t' ++ t)
        (([" x = 1".toList, "     if (x) \x7b".toList, [], "y".toList, "\x7d".toList].map
          trim).filter (fun l => !l.isEmpty))
        (block.filter (fun l => !l.isEmpty)) ∧
      block.filter (fun l => !l.isEmpty) =
        (flatPrefix (([" x = 1".toList, "     if (x) \x7b".toList, [], "y".toList,
          "\x7d".toList].map trim).filter (fun l => !l.isEmpty))).map
          (fun t => List.replicate (n + 1) '\t' ++ t) ++ tail :=
  script_block_content_indent
    "<div>\n<script>\n x = 1\n     if (x) \x7b\n\ny\n\x7d\n</script>\n</div>".toList
    ["<div>".toList]
    [" x = 1".toList, "     if (x) \x7b".toList, [], "y".toList, "\x7d".toList]
    ["</div>".toList]
    "<script>".toList "</script>".toList (by decide) (by decide) (by decide) (by decide)

/-- C6: on a text whose marker lines (`<script>`, `</script>`, `<style>`,
`</style>` after trimming) form properly paired, non-nested, non-interleaved
open/close pairs with no unmatched marker, formatting the formatted text
returns it unchanged. -/
theorem format_idempotent_on_well_formed_blocks (text : Str)
    (h : wellFormedBlocks .normal (splitNL text) = true) :
    formatFubeltDocument (formatFubeltDocument text) = formatFubeltDocument text := by
  have hne := run_initState_ne_nil (splitNL_ne_nil text)
  have hnl := run_no_nl (splitNL text) initState (splitNL_no_nl text)
    (fun x hx => by simp [initState] at hx)
  have hsplit := splitNL_joinNL _ hne hnl
  conv_lhs => rw [formatFubeltDocument, formatFubeltDocument, hsplit, second_pass_lines text h]
  rfl

/-- Witness for C6: a text with a script block (blank first line, nested
brackets), a style block and tag lines, all badly indented. -/
theorem format_idempotent_on_well_formed_blocks_witness :
    formatFubeltDocument (formatFubeltDocument
      "  <div>\n<script>\n\n  foo(\x7b\na: 1\n\x7d)\n</script>\n <style>\n.a \x7b\nb: c;\n\x7d\n</style>\n</div>".toList) =
    formatFubeltDocument
      "  <div>\n<script>\n\n  foo(\x7b\na: 1\n\x7d)\n</script>\n <style>\n.a \x7b\nb: c;\n\x7d\n</style>\n</div>".toList :=
  format_idempotent_on_well_formed_blocks _ (by decide)

/-- C11: outside script and style blocks, a line that starts with `<` but not
with `</` and matches the single-line-element pattern of line 245 (an opening
tag followed later on the line by a closing tag) is emitted at the current
indent level and leaves that level unchanged; and the three-line text
`<div>` / `<span>text</span>` / `</div>` is formatted as the claim says. -/
theorem single_line_element_is_neutral (st : FmtState) (n : Nat) (line : Str)
    (hn : st.indentLevel = n)
    (hs : st.inScriptBlock = false) (hy : st.inStyleBlock = false)
    (hlt : startsWith (trim line) ['<'] = true)
    (hcl : startsWith (trim line) "</".toList = false)
    (hre : reSingleLineElement (trim line) = true) :
    (step st line).formattedLines =
      st.formattedLines ++ [List.replicate n '\t' ++ trim line] ∧
    (step st line).indentLevel = n ∧
    formatFubeltDocument "<div>\n<span>text</span>\n</div>".toList =
      "<div>\n\t<span>text</span>\n</div>".toList := by
  have hne := ne_nil_of_startsWith_lt hlt
  have hjs := isJavaScriptLine_of_startsWith_lt hlt
  have hm : isMarker (trim line) = false := by
    by_contra hcon
    rcases isMarker_cases (by simpa using hcon) with h | h | h | h <;> rw [h] at hre hcl
    · exact absurd hre (by decide)
    · exact absurd hcl (by decide)
    · exact absurd hre (by decide)
    · exact absurd hcl (by decide)
  have hstep : step st line =
      { markJSX st (trim line) with
        formattedLines := st.formattedLines ++ [tabs st.indentLevel ++ trim line] } := by
    rw [step, stepTrimmed_other st hne hm, if_neg (by simp [hs]), if_neg (by simp [hy]),
      normalLine, dispatch_eq_markupBranches _ _ (by simp [hjs]), markupBranches]
    simp only [hre, hcl, Bool.not_false, Bool.and_self, if_true]
    rfl
  refine ⟨?_, ?_, by decide⟩
  · rw [hstep, hn, tabs_natCast]
  · rw [hstep]; exact hn

/-- Witness for C11: `<span>text</span>` read at level 1. -/
theorem single_line_element_is_neutral_witness :
    (step { initState with indentLevel := 1 } "  <span>text</span>".toList).formattedLines =
      [] ++ [List.replicate 1 '\t' ++ trim "  <span>text</span>".toList] ∧
    (step { initState with indentLevel := 1 } "  <span>text</span>".toList).indentLevel = 1 :=
  ⟨(single_line_element_is_neutral { initState with indentLevel := 1 } 1
      "  <span>text</span>".toList rfl rfl rfl (by decide) (by decide) (by decide)).1,
   (single_line_element_is_neutral { initState with indentLevel := 1 } 1
      "  <span>text</span>".toList rfl rfl rfl (by decide) (by decide) (by decide)).2.1⟩

/-- C13: full-document formatting returns no edit exactly when the formatted
text equals the text, and otherwise exactly one edit, which replaces the
range from offset 0 to offset `text.length` by the formatted text; range
formatting returns at most one edit, and its range is the requested range. -/
theorem formatting_edits_shape {Pos Range : Type} (positionAt : Nat → Pos)
    (getText : Range → Str) (text : Str) (range : Range) :
    (provideDocumentFormattingEdits positionAt text = [] ↔
      formatFubeltDocument text = text) ∧
    ((formatFubeltDocument text = text ∧ provideDocumentFormattingEdits positionAt text = []) ∨
      (formatFubeltDocument text ≠ text ∧
        provideDocumentFormattingEdits positionAt text =
          [{ range := (positionAt 0, positionAt (jsLength text)),
             newText := formatFubeltDocument text }])) ∧
    (provideDocumentRangeFormattingEdits getText range).length ≤ 1 ∧
    (∀ e ∈ provideDocumentRangeFormattingEdits getText range,
      e.range = range ∧ e.newText = formatFubeltDocument (getText range)) := by
  unfold provideDocumentFormattingEdits provideDocumentRangeFormattingEdits
  by_cases h : formatFubeltDocument text = text <;>
    by_cases h2 : formatFubeltDocument (getText range) = getText range <;>
    simp [h, h2]

/-- C14: two texts with the same number of lines whose corresponding lines
are equal after trimming are formatted to the same string. -/
theorem format_ignores_original_indentation (t1 t2 : Str)
    (h : (splitNL t1).map trim = (splitNL t2).map trim) :
    formatFubeltDocument t1 = formatFubeltDocument t2 := by
  rw [formatFubeltDocument, formatFubeltDocument, run_eq_foldl, run_eq_foldl, h]

/-- Witness for C14: the same three lines with different indentation. -/
theorem format_ignores_original_indentation_witness :
    formatFubeltDocument "   <div>\n\t\tx = 1 \n</div>".toList =
      formatFubeltDocument "<div>\nx = 1\n      </div>\t".toList :=
  format_ignores_original_indentation _ _ (by decide)

/-- C16, as stated, fails: the trimmed line `b: 2 };` ends in `};` and is no
statement line, so outside tag context it takes the fallback branch and its
net bracket delta of -1 is not applied. -/
theorem line_ending_brace_semicolon_no_statement :
    trim "b: 2 \x7d;".toList = "b: 2 \x7d;".toList ∧
    endsWith "b: 2 \x7d;".toList "\x7d;".toList = true ∧
    isJavaScriptLine "b: 2 \x7d;".toList = false ∧
    (step { initState with indentLevel := 1 } "b: 2 \x7d;".toList).indentLevel = 1 ∧
    stmtIndentAfter 1 "b: 2 \x7d;".toList = 0 := by
  decide

/-- C16, amended: every line that, trimmed, starts with `}`, optional white
space and `;` is a statement line; outside blocks and before any tag line it
is handled by the statement branch, which emits it after the dedent and then
applies its net bracket delta. -/
theorem brace_semicolon_start_is_statement (st : FmtState) (line ws rest : Str)
    (ht : trim line = '}' :: (ws ++ ';' :: rest))
    (hws : ∀ c ∈ ws, isWhiteSpace c = true)
    (hs : st.inScriptBlock = false) (hy : st.inStyleBlock = false)
    (hj : st.inJSXContext = false) :
    isJavaScriptLine (trim line) = true ∧
    (step st line).formattedLines =
      st.formattedLines ++ [tabs (max 0 (st.indentLevel - 1)) ++ trim line] ∧
    (step st line).indentLevel =
      max 0 (max 0 (st.indentLevel - 1) + stmtNetChange (trim line)) := by
  have hjs : isJavaScriptLine (trim line) = true := by
    have : reBraceSemi (trim line) = true := by
      rw [ht, reBraceSemi, List.dropWhile_append_of_pos hws]
      simp [List.dropWhile, isWhiteSpace, isLineTerminator, startsWith]
    simp [isJavaScriptLine, this]
  have hd : dedentBefore st.indentLevel (trim line) = max 0 (st.indentLevel - 1) := by
    have : startsWithCloser (trim line) = true := by
      rw [ht]; simp [startsWithCloser, startsWith]
    simp [dedentBefore, this]
  refine ⟨hjs, ?_, ?_⟩
  · rw [step, stepTrimmed_statement st _ hs hy hj hjs]
    simp only [statementBranch, hd]
  · rw [step, stepTrimmed_statement st _ hs hy hj hjs]
    simp only [statementBranch, stmtIndentAfter, hd]

/-- Witness for C16 amended: the line `} ;` read at level 2. -/
theorem brace_semicolon_start_is_statement_witness :
    isJavaScriptLine (trim " \x7d ;".toList) = true :=
  (brace_semicolon_start_is_statement { initState with indentLevel := 2 } " \x7d ;".toList
    [' '] [] (by decide) (by decide) rfl rfl rfl).1

/-- C17, as stated, fails: a bare `</script>` line read outside blocks starts
with `<` and with neither `<script>` nor `<style>`, yet it is consumed as a
block marker before the classification and leaves the flag unset; the later
line `foo([` then takes the statement branch and raises the level by 2. -/
theorem bare_closing_marker_leaves_flag_unset :
    startsWith "</script>".toList ['<'] = true ∧
    startsWith "</script>".toList "<script>".toList = false ∧
    startsWith "</script>".toList "<style>".toList = false ∧
    (step initState "</script>".toList).inJSXContext = false ∧
    (run initState ["</script>".toList, "foo([".toList]).indentLevel = 2 ∧
    formatFubeltDocument "</script>\nfoo([\nx".toList = "</script>\nfoo([\n\t\tx".toList := by
  decide

/-- C17, amended: once a line that starts with `<`, but not with `<script>` or
`<style>`, and is not itself a block marker has been read outside blocks (so
that it reaches the classification of lines 214-269), the flag is set after
every further line, whatever is read; every later line that reaches the
classification is handled by the branches after the statement branch; and
there a line `foo([` leaves the indent level unchanged. -/
theorem jsx_context_is_sticky (st : FmtState) (line : Str) (later : List Str)
    (hs : st.inScriptBlock = false) (hy : st.inStyleBlock = false)
    (hm : isMarker (trim line) = false)
    (hlt : startsWith (trim line) ['<'] = true)
    (h1 : startsWith (trim line) "<script>".toList = false)
    (h2 : startsWith (trim line) "<style>".toList = false) :
    (run (step st line) later).inJSXContext = true ∧
    (∀ t : Str, (run (step st line) later).inScriptBlock = false →
      (run (step st line) later).inStyleBlock = false → t ≠ [] → isMarker t = false →
      stepTrimmed (run (step st line) later) t = markupBranches (run (step st line) later) t) ∧
    ((run (step st line) later).inScriptBlock = false →
      (run (step st line) later).inStyleBlock = false →
      (step (run (step st line) later) "foo([".toList).indentLevel =
        (run (step st line) later).indentLevel) := by
  have hj : isJSXLine (trim line) = true := by
    unfold isJSXLine; rw [hlt, h1, h2]; rfl
  have hflag : (run (step st line) later).inJSXContext = true :=
    run_flag later _ (stepTrimmed_sets_flag st hs hy hm hj)
  refine ⟨hflag, fun t hs2 hy2 hne hmt => stepTrimmed_of_flag _ hflag hs2 hy2 hne hmt, ?_⟩
  intro hs2 hy2
  have ht : trim "foo([".toList = "foo([".toList := by decide
  rw [step, ht, stepTrimmed_of_flag _ hflag hs2 hy2 (by decide) (by decide), markupBranches]
  have e1 : reSingleLineElement "foo([".toList = false := by decide
  have e2 : isJSXClose "foo([".toList = false := by decide
  have e3 : endsWith "foo([".toList "/>".toList = false := by decide
  have e4 : isJSXLine "foo([".toList = false := by decide
  simp only [e1, e2, e3, e4, Bool.false_and, Bool.false_eq_true, if_false, fallbackBranch]
  have e5 : startsWith "foo([".toList ['}'] = false := by decide
  have e6 : startsWith "foo([".toList [')'] = false := by decide
  have e7 : endsWith "foo([".toList ['('] = false := by decide
  have e8 : endsWith "foo([".toList ['{'] = false := by decide
  simp only [e5, e6, e7, e8, Bool.or_self, Bool.false_and, Bool.false_eq_true, if_false]

/-- Witness for C17 amended: `<p>`, a script block, then `foo([`. -/
theorem jsx_context_is_sticky_witness :
    (run (step initState "<p>".toList)
      ["<script>".toList, "a = 1".toList, "</script>".toList]).inJSXContext = true ∧
    (step (run (step initState "<p>".toList)
      ["<script>".toList, "a = 1".toList, "</script>".toList]) "foo([".toList).indentLevel =
      (run (step initState "<p>".toList)
        ["<script>".toList, "a = 1".toList, "</script>".toList]).indentLevel :=
  ⟨(jsx_context_is_sticky initState "<p>".toList
      ["<script>".toList, "a = 1".toList, "</script>".toList] rfl rfl
      (by decide) (by decide) (by decide) (by decide)).1,
   (jsx_context_is_sticky initState "<p>".toList
      ["<script>".toList, "a = 1".toList, "</script>".toList] rfl rfl
      (by decide) (by decide) (by decide) (by decide)).2.2 (by decide) (by decide)⟩

/-- C18: `formatJavaScript` is claimed to indent properly nested blocks by
their depth.  On `if (x) {` / `if (y) {` / `z` / `}` / `w` / `}` the inner
closing `}` is dedented before it is emitted and its bracket is then counted
again in the net change, so the level drops from 2 to 0 and `w`, which
follows the inner block, is emitted with no tab instead of one. -/
theorem script_closer_dedents_twice :
    jsIndentAfter 2 "\x7d".toList = 0 ∧
    formatJavaScript "if (x) \x7b\nif (y) \x7b\nz\n\x7d\nw\n\x7d".toList 0 =
      "if (x) \x7b\n\tif (y) \x7b\n\t\tz\n\t\x7d\nw\n\x7d".toList := by
  decide

/-- C19: for every base indent b and every style text whose trimmed lines are
properly nested (openers, closers and neutral lines as the claim defines
them, blank lines aside), `formatCSS` leaves blank lines empty and emits every
other line, trimmed, behind b plus its nesting depth tabs, a closer at the
depth of its opener; and the indent level after the last line is 0. -/
theorem css_nested_rules_indent (b : Nat) (code : Str)
    (h : cssNested 0 ((splitNL code).map trim) = true) :
    formatCSS code b = joinNL (cssExpected b 0 ((splitNL code).map trim)) ∧
    ((splitNL code).foldl (cssStep b) ⟨[], 0⟩).indentLevel = 0 := by
  obtain ⟨h1, h2⟩ := css_nested_run b (splitNL code) ⟨[], 0⟩ 0 rfl h
  refine ⟨?_, h2⟩
  rw [formatCSS, h1]; rfl

/-- Witness for C19: a rule nested in an at-rule, with a one-line rule and a
blank line, at base indent 1. -/
theorem css_nested_rules_indent_witness :
    formatCSS "@m \x7b\n  .a \x7b\n\nb: c;\n.d \x7b e \x7d\n\x7d\n\x7d".toList (1 : Nat) =
      "\t@m \x7b\n\t\t.a \x7b\n\n\t\t\tb: c;\n\t\t\t.d \x7b e \x7d\n\t\t\x7d\n\t\x7d".toList :=
  (css_nested_rules_indent 1 "@m \x7b\n  .a \x7b\n\nb: c;\n.d \x7b e \x7d\n\x7d\n\x7d".toList
    (by decide)).1.trans (by decide)

/-- C20: for a text none of whose lines trims to a block marker, the
formatted text has as many lines as the text, and line by line the output is
the empty string where the input line is blank and otherwise some tabs
followed by the input line trimmed. -/
theorem unmarked_text_keeps_its_lines (text : Str)
    (h : ∀ l ∈ splitNL text, isMarker (trim l) = false) :
    (splitNL (formatFubeltDocument text)).length = (splitNL text).length ∧
    List.Forall₂ (fun l o => (trim l = [] → o = []) ∧
        (trim l ≠ [] → ∃ k : Nat, o = List.replicate k '\t' ++ trim l))
      (splitNL text) (splitNL (formatFubeltDocument text)) := by
  obtain ⟨outs, ho, hf⟩ := run_unmarked (splitNL text) initState rfl rfl h
  have hne := run_initState_ne_nil (splitNL_ne_nil text)
  have hnl := run_no_nl (splitNL text) initState (splitNL_no_nl text)
    (fun x hx => by simp [initState] at hx)
  have hout : splitNL (formatFubeltDocument text) = outs := by
    rw [formatFubeltDocument, splitNL_joinNL _ hne hnl, ho]; rfl
  rw [hout]
  exact ⟨hf.length_eq.symm, hf⟩

/-- Witness for C20: four lines, one of them blank. -/
theorem unmarked_text_keeps_its_lines_witness :
    (splitNL (formatFubeltDocument "<div>\n  \nfoo(\n  </div>".toList)).length =
      (splitNL "<div>\n  \nfoo(\n  </div>".toList).length :=
  (unmarked_text_keeps_its_lines "<div>\n  \nfoo(\n  </div>".toList (by decide)).1

/-- C12: for every text, `findOpenTags` is the left fold, from the empty
list, of the update stated in the specification (`tagStepSpec`) over the
matches of the tag regex in order; each match is a `<`, an optional `/`, a
non-empty name of word characters or hyphens, characters other than `>`, and
a `>`; and the text `<a><b></b><c>` yields `a`, `c`. -/
theorem findOpenTags_is_spec_fold (text : Str) :
    findOpenTags text = (tagMatches text).foldl tagStepSpec [] ∧
    (∀ m ∈ tagMatches text,
      ∃ attrs : Str, m.whole = '<' :: (m.slash ++ m.name ++ attrs ++ ['>']) ∧
        (m.slash = [] ∨ m.slash = ['/']) ∧ m.name ≠ [] ∧
        (∀ c ∈ m.name, isTagNameChar c = true) ∧ '>' ∉ attrs) ∧
    findOpenTags "<a><b></b><c>".toList = ["a".toList, "c".toList] :=
  ⟨foldl_tagStep_eq_spec (tagMatches text) [],
   fun m hm => tagMatchesFrom_shape text 0 m hm, by decide⟩

/-- C15: for every token sequence that obeys the strict stack discipline
(each closing token names the tag on top of the stack), the list computed by
the loop of `findOpenTags` is the stack of tags opened and not yet closed,
outermost first; it is empty when as many tags were closed as were opened. -/
theorem well_nested_scan_is_stack (toks : List TagMatch) (stk : List Str)
    (h : strictStack [] toks = some stk) :
    toks.foldl tagStep [] = stk ∧
    (pushCount toks = closeTokenCount toks → toks.foldl tagStep [] = []) := by
  obtain ⟨h1, h2⟩ := strictStack_fold toks [] stk h
  refine ⟨h1, fun heq => ?_⟩
  rw [h1]
  have : stk.length = 0 := by
    simp only [List.length_nil] at h2; omega
  exact List.length_eq_zero.mp this

/-- Witness for C15: the tokens of `<a><b><img/></b><c>`. -/
theorem well_nested_scan_is_stack_witness :
    findOpenTags "<a><b><img/></b><c>".toList = ["a".toList, "c".toList] :=
  (well_nested_scan_is_stack (tagMatches "<a><b><img/></b><c>".toList)
    ["a".toList, "c".toList] (by decide)).1

end Fubelt
